import Mathlib

/-!
Verification development for the signal-processing engine of the
myfanview dashboard (class SignalProcessor, files js/signal-processing.js
and its sibling revision).

The JavaScript is shallowly embedded: JS numbers become real numbers
(exact arithmetic; floating-point error is discussed in comments where it
matters), JS arrays become lists, functions that can return null become
Option-valued functions.  The forward FFT is provided by the external
DSP.js library (not part of this repository); following the specification
it is modelled as the standard discrete Fourier transform.
-/

open Complex Real Finset

noncomputable section

namespace SignalProcessor

/-! ## Fourier core

The primitive n-th root of unity and the two transforms, as functions on
index functions.  These back the list-level embeddings of the DSP.js
forward transform and of the module's own inverse transform. -/

/-- The primitive n-th root of unity used by the discrete Fourier transform. -/
def zeta (n : ℕ) : ℂ := Complex.exp (2 * Real.pi * Complex.I / n)

/-- Entry k of the discrete Fourier transform of x over n points. -/
def dftFun (x : ℕ → ℂ) (n k : ℕ) : ℂ :=
  ∑ t ∈ Finset.range n, x t * zeta n ^ (-((k * t : ℕ) : ℤ))

/-- Entry t of the inverse discrete Fourier transform (1/n normalisation,
positive angle sign) of y over n points. -/
def idftFun (y : ℕ → ℂ) (n t : ℕ) : ℂ :=
  (∑ k ∈ Finset.range n, y k * zeta n ^ ((k * t : ℕ) : ℤ)) / n

lemma zeta_ne_zero (n : ℕ) : zeta n ≠ 0 := Complex.exp_ne_zero _

lemma zeta_zpow_natMul (n : ℕ) (hn : n ≠ 0) (d : ℤ) :
    zeta n ^ ((n : ℤ) * d) = 1 := by
  have h := Complex.isPrimitiveRoot_exp n hn
  have h1 : zeta n ^ (n : ℕ) = 1 := h.pow_eq_one
  calc zeta n ^ ((n : ℤ) * d) = (zeta n ^ (n : ℤ)) ^ d := by rw [zpow_mul]
    _ = 1 := by rw [zpow_natCast, h1, one_zpow]

/-- Geometric sum of powers of the n-th root of unity: it is n when n divides
the stride d and 0 otherwise. -/
lemma zeta_geom_sum (n : ℕ) (hn : n ≠ 0) (d : ℤ) :
    ∑ k ∈ Finset.range n, zeta n ^ ((k : ℤ) * d) =
      if (n : ℤ) ∣ d then (n : ℂ) else 0 := by
  have hprim := Complex.isPrimitiveRoot_exp n hn
  by_cases hdvd : (n : ℤ) ∣ d
  · obtain ⟨e, rfl⟩ := hdvd
    rw [if_pos (dvd_mul_right (n : ℤ) e)]
    have : ∀ k ∈ Finset.range n, zeta n ^ ((k : ℤ) * ((n : ℤ) * e)) = 1 := by
      intro k _
      have : (k : ℤ) * ((n : ℤ) * e) = (n : ℤ) * ((k : ℤ) * e) := by ring
      rw [this, zeta_zpow_natMul n hn]
    rw [Finset.sum_congr rfl this]
    simp
  · rw [if_neg hdvd]
    have hne : zeta n ^ d ≠ 1 := by
      intro h1
      exact hdvd ((hprim.zpow_eq_one_iff_dvd d).mp h1)
    have hrw : ∀ k ∈ Finset.range n, zeta n ^ ((k : ℤ) * d) = (zeta n ^ d) ^ k := by
      intro k _
      rw [mul_comm, zpow_mul, zpow_natCast]
    rw [Finset.sum_congr rfl hrw, geom_sum_eq hne]
    have hnum : (zeta n ^ d) ^ n - 1 = 0 := by
      have : (zeta n ^ d) ^ n = zeta n ^ ((n : ℤ) * d) := by
        rw [← zpow_natCast (zeta n ^ d) n, ← zpow_mul, mul_comm]
      rw [this, zeta_zpow_natMul n hn, sub_self]
    rw [hnum, zero_div]

/-- Fourier inversion: the inverse transform undoes the forward transform
exactly, entry by entry, for indices below n. -/
lemma idft_dft (x : ℕ → ℂ) (n : ℕ) (hn : n ≠ 0) (t : ℕ) (ht : t < n) :
    idftFun (fun k => dftFun x n k) n t = x t := by
  unfold idftFun dftFun
  have hswap :
      (∑ k ∈ Finset.range n, (∑ s ∈ Finset.range n,
          x s * zeta n ^ (-((k * s : ℕ) : ℤ))) * zeta n ^ ((k * t : ℕ) : ℤ)) =
      ∑ s ∈ Finset.range n, x s *
        ∑ k ∈ Finset.range n, zeta n ^ ((k : ℤ) * ((t : ℤ) - (s : ℤ))) := by
    calc (∑ k ∈ Finset.range n, (∑ s ∈ Finset.range n,
            x s * zeta n ^ (-((k * s : ℕ) : ℤ))) * zeta n ^ ((k * t : ℕ) : ℤ))
        = ∑ k ∈ Finset.range n, ∑ s ∈ Finset.range n,
            x s * zeta n ^ (-((k * s : ℕ) : ℤ)) * zeta n ^ ((k * t : ℕ) : ℤ) := by
          apply Finset.sum_congr rfl
          intro k _
          rw [Finset.sum_mul]
      _ = ∑ s ∈ Finset.range n, ∑ k ∈ Finset.range n,
            x s * zeta n ^ (-((k * s : ℕ) : ℤ)) * zeta n ^ ((k * t : ℕ) : ℤ) :=
          Finset.sum_comm
      _ = ∑ s ∈ Finset.range n, x s *
            ∑ k ∈ Finset.range n, zeta n ^ ((k : ℤ) * ((t : ℤ) - (s : ℤ))) := by
          apply Finset.sum_congr rfl
          intro s _
          rw [Finset.mul_sum]
          apply Finset.sum_congr rfl
          intro k _
          rw [mul_assoc, ← zpow_add₀ (zeta_ne_zero n)]
          congr 1
          push_cast
          ring_nf
  rw [hswap]
  have hterm : ∀ s ∈ Finset.range n,
      x s * (∑ k ∈ Finset.range n, zeta n ^ ((k : ℤ) * ((t : ℤ) - (s : ℤ)))) =
      if s = t then x s * n else 0 := by
    intro s hs
    rw [zeta_geom_sum n hn]
    by_cases hst : s = t
    · subst hst
      simp
    · have : ¬ (n : ℤ) ∣ ((t : ℤ) - (s : ℤ)) := by
        intro hdvd
        have hs' := Finset.mem_range.mp hs
        have habs : (t : ℤ) - (s : ℤ) ≠ 0 := by
          intro h0
          exact hst (by omega)
        have h1 : ((t : ℤ) - (s : ℤ)).natAbs < n := by omega
        have h2 := Int.natAbs_dvd_natAbs.mpr hdvd
        simp only [Int.natAbs_ofNat] at h2
        have := Nat.le_of_dvd (by omega) h2
        omega
      rw [if_neg this, mul_zero, if_neg hst]
  rw [Finset.sum_congr rfl hterm, Finset.sum_ite_eq' (Finset.range n) t (fun s => x s * n)]
  rw [if_pos (Finset.mem_range.mpr ht)]
  have hnC : (n : ℂ) ≠ 0 := Nat.cast_ne_zero.mpr hn
  rw [mul_div_assoc, div_self hnC, mul_one]

/-! ### Masked inversion (Hilbert analytic-signal construction)

performHilbert multiplies the spectrum by the canonical Hilbert mask
(1 at DC, 2 on strictly positive frequencies below Nyquist, 1 at the
Nyquist bin, 0 above) before inverting.  The key mathematical fact is that
the real part of the inverse transform of the masked spectrum is the
original real signal. -/

/-- The Hilbert spectral mask applied by performHilbert (source lines
building analyticSpectrum): 1 at bin 0, 2 at bins 1..n/2-1, 1 at bin n/2,
0 at bins above n/2. -/
def hMask (n k : ℕ) : ℝ :=
  if k = 0 then 1
  else if k < n / 2 then 2
  else if k = n / 2 then 1
  else 0

/-- The mask and its index-reversed copy sum to the constant 2 (n even). -/
lemma hMask_add_rev (n k : ℕ) (hn : 2 ≤ n) (he : n % 2 = 0) (hk : k < n) :
    hMask n k + hMask n ((n - k) % n) = 2 := by
  unfold hMask
  by_cases h0 : k = 0
  · subst h0
    norm_num [Nat.mod_self]
  · have hmod : (n - k) % n = n - k := Nat.mod_eq_of_lt (by omega)
    rw [hmod]
    by_cases hlt : k < n / 2
    · have h1 : ¬ (n - k = 0) := by omega
      have h2 : ¬ (n - k < n / 2) := by omega
      have h3 : ¬ (n - k = n / 2) := by omega
      rw [if_neg h0, if_pos hlt, if_neg h1, if_neg h2, if_neg h3]
      norm_num
    · by_cases heq : k = n / 2
      · have h1 : ¬ (n - k = 0) := by omega
        have h2 : ¬ (n - k < n / 2) := by omega
        have h3 : n - k = n / 2 := by omega
        rw [if_neg h0, if_neg hlt, if_pos heq, if_neg h1, if_neg h2, if_pos h3]
        norm_num
      · have h1 : ¬ (n - k = 0) := by omega
        have h2 : n - k < n / 2 := by omega
        rw [if_neg h0, if_neg hlt, if_neg heq, if_neg h1, if_pos h2]
        norm_num

/-- The reversal k ↦ (n - k) % n is an involution on indices below n. -/
lemma rev_involutive (n a : ℕ) (ha : a < n) : (n - (n - a) % n) % n = a := by
  by_cases h0 : a = 0
  · subst h0
    simp [Nat.mod_self]
  · have h1 : (n - a) % n = n - a := Nat.mod_eq_of_lt (by omega)
    rw [h1]
    have h2 : n - (n - a) = a := by omega
    rw [h2, Nat.mod_eq_of_lt ha]

/-- Reindexing a range-n sum by the reversal k ↦ (n - k) % n. -/
lemma sum_range_rev {M : Type} [AddCommMonoid M] (n : ℕ) (f : ℕ → M) :
    ∑ k ∈ Finset.range n, f k = ∑ k ∈ Finset.range n, f ((n - k) % n) := by
  rcases Nat.eq_zero_or_pos n with h0 | hpos
  · subst h0
    simp
  apply Finset.sum_nbij' (fun k => (n - k) % n) (fun k => (n - k) % n)
  · intro a ha
    exact Finset.mem_range.mpr (Nat.mod_lt _ hpos)
  · intro a ha
    exact Finset.mem_range.mpr (Nat.mod_lt _ hpos)
  · intro a ha
    exact rev_involutive n a (Finset.mem_range.mp ha)
  · intro a ha
    exact rev_involutive n a (Finset.mem_range.mp ha)
  · intro a ha
    exact congrArg f (rev_involutive n a (Finset.mem_range.mp ha)).symm

/-- Negative-exponent powers of zeta across the reversal reindexing. -/
lemma zeta_zpow_rev (n : ℕ) (hn : n ≠ 0) (k : ℕ) (hk : k < n) (d : ℤ) :
    zeta n ^ (-(((((n - k) % n) : ℕ) : ℤ) * d)) = zeta n ^ ((k : ℤ) * d) := by
  by_cases h0 : k = 0
  · subst h0
    simp [Nat.mod_self]
  · have h1 : (n - k) % n = n - k := Nat.mod_eq_of_lt (by omega)
    rw [h1]
    have : -((((n - k : ℕ) : ℤ)) * d) = (k : ℤ) * d + (n : ℤ) * (-d) := by
      have hcast : ((n - k : ℕ) : ℤ) = (n : ℤ) - (k : ℤ) := by
        push_cast [Nat.cast_sub (le_of_lt hk)]
        ring
      rw [hcast]
      ring
    rw [this, zpow_add₀ (zeta_ne_zero n), zeta_zpow_natMul n hn, mul_one]

/-- The masked root-of-unity sum: adding the sum with reversed stride turns
the Hilbert mask into the constant 2, collapsing to the plain geometric sum. -/
lemma mask_sum_add_rev (n : ℕ) (hn : 2 ≤ n) (he : n % 2 = 0) (d : ℤ) :
    (∑ k ∈ Finset.range n, (hMask n k : ℂ) * zeta n ^ ((k : ℤ) * d)) +
      (∑ k ∈ Finset.range n, (hMask n k : ℂ) * zeta n ^ (-((k : ℤ) * d))) =
    2 * (if (n : ℤ) ∣ d then (n : ℂ) else 0) := by
  have hn0 : n ≠ 0 := by omega
  have hrev :
      (∑ k ∈ Finset.range n, (hMask n k : ℂ) * zeta n ^ (-((k : ℤ) * d))) =
      ∑ k ∈ Finset.range n, (hMask n ((n - k) % n) : ℂ) * zeta n ^ ((k : ℤ) * d) := by
    rw [sum_range_rev n (fun k => (hMask n k : ℂ) * zeta n ^ (-((k : ℤ) * d)))]
    apply Finset.sum_congr rfl
    intro k hk
    congr 1
    exact zeta_zpow_rev n hn0 k (Finset.mem_range.mp hk) d
  rw [hrev, ← Finset.sum_add_distrib]
  have hpt : ∀ k ∈ Finset.range n,
      (hMask n k : ℂ) * zeta n ^ ((k : ℤ) * d) +
        (hMask n ((n - k) % n) : ℂ) * zeta n ^ ((k : ℤ) * d) =
      2 * zeta n ^ ((k : ℤ) * d) := by
    intro k hk
    rw [← add_mul]
    congr 1
    have := hMask_add_rev n k hn he (Finset.mem_range.mp hk)
    exact_mod_cast this
  rw [Finset.sum_congr rfl hpt, ← Finset.mul_sum, zeta_geom_sum n hn0]

/-- Real part of the masked inverse transform: for a real input signal and
even n, entry t of the inverse transform of the Hilbert-masked spectrum has
real part exactly the original sample x t.  This is the exact-arithmetic
heart of the envelope-dominance invariant. -/
lemma re_idft_mask (xr : ℕ → ℝ) (n : ℕ) (hn : 2 ≤ n) (he : n % 2 = 0)
    (t : ℕ) (ht : t < n) :
    (idftFun (fun k => (hMask n k : ℂ) * dftFun (fun s => (xr s : ℂ)) n k) n t).re
      = xr t := by
  have hn0 : n ≠ 0 := by omega
  set a : ℂ :=
    idftFun (fun k => (hMask n k : ℂ) * dftFun (fun s => (xr s : ℂ)) n k) n t with ha
  -- Expand a as a double sum grouped by the source sample s.
  have hA : a = (∑ s ∈ Finset.range n, (xr s : ℂ) *
      ∑ k ∈ Finset.range n, (hMask n k : ℂ) * zeta n ^ ((k : ℤ) * ((t : ℤ) - s))) / n := by
    rw [ha]
    unfold idftFun dftFun
    congr 1
    calc (∑ k ∈ Finset.range n, ((hMask n k : ℂ) * ∑ s ∈ Finset.range n,
            (xr s : ℂ) * zeta n ^ (-((k * s : ℕ) : ℤ))) * zeta n ^ ((k * t : ℕ) : ℤ))
        = ∑ k ∈ Finset.range n, ∑ s ∈ Finset.range n,
            (xr s : ℂ) * ((hMask n k : ℂ) * (zeta n ^ (-((k * s : ℕ) : ℤ)) *
              zeta n ^ ((k * t : ℕ) : ℤ))) := by
          apply Finset.sum_congr rfl
          intro k _
          rw [Finset.mul_sum, Finset.sum_mul]
          apply Finset.sum_congr rfl
          intro s _
          ring
      _ = ∑ s ∈ Finset.range n, ∑ k ∈ Finset.range n,
            (xr s : ℂ) * ((hMask n k : ℂ) * (zeta n ^ (-((k * s : ℕ) : ℤ)) *
              zeta n ^ ((k * t : ℕ) : ℤ))) := Finset.sum_comm
      _ = ∑ s ∈ Finset.range n, (xr s : ℂ) *
            ∑ k ∈ Finset.range n, (hMask n k : ℂ) * zeta n ^ ((k : ℤ) * ((t : ℤ) - s)) := by
          apply Finset.sum_congr rfl
          intro s _
          rw [Finset.mul_sum]
          apply Finset.sum_congr rfl
          intro k _
          rw [← zpow_add₀ (zeta_ne_zero n)]
          have harg : (-((k * s : ℕ) : ℤ) + ((k * t : ℕ) : ℤ)) = (k : ℤ) * ((t : ℤ) - s) := by
            push_cast
            ring
          rw [harg]
  -- Conjugate of a: the same double sum with reversed stride.
  have hConj : (starRingEnd ℂ) a = (∑ s ∈ Finset.range n, (xr s : ℂ) *
      ∑ k ∈ Finset.range n, (hMask n k : ℂ) * zeta n ^ (-((k : ℤ) * ((t : ℤ) - s)))) / n := by
    rw [hA]
    rw [map_div₀, map_sum]
    congr 1
    · apply Finset.sum_congr rfl
      intro s _
      rw [map_mul, map_sum, Complex.conj_ofReal]
      congr 1
      apply Finset.sum_congr rfl
      intro k _
      rw [map_mul, Complex.conj_ofReal]
      congr 1
      have hconjz : (starRingEnd ℂ) (zeta n) = (zeta n)⁻¹ := by
        unfold zeta
        rw [← Complex.exp_conj]
        rw [← Complex.exp_neg]
        congr 1
        rw [map_div₀, map_mul, map_mul]
        simp only [Complex.conj_I, Complex.conj_ofReal, map_ofNat, map_natCast]
        ring
      rw [map_zpow₀, hconjz, inv_zpow, ← zpow_neg]
    · simp
  -- a + conj a = 2 * x t.
  have hsum : a + (starRingEnd ℂ) a = 2 * (xr t : ℂ) := by
    rw [hConj, hA, div_add_div_same]
    have hnum : (∑ s ∈ Finset.range n, (xr s : ℂ) *
        ∑ k ∈ Finset.range n, (hMask n k : ℂ) * zeta n ^ ((k : ℤ) * ((t : ℤ) - s))) +
        (∑ s ∈ Finset.range n, (xr s : ℂ) *
        ∑ k ∈ Finset.range n, (hMask n k : ℂ) * zeta n ^ (-((k : ℤ) * ((t : ℤ) - s)))) =
        ∑ s ∈ Finset.range n, (xr s : ℂ) *
          (2 * (if (n : ℤ) ∣ ((t : ℤ) - s) then (n : ℂ) else 0)) := by
      rw [← Finset.sum_add_distrib]
      apply Finset.sum_congr rfl
      intro s _
      rw [← mul_add, mask_sum_add_rev n hn he]
    rw [hnum]
    have hterm : ∀ s ∈ Finset.range n, (xr s : ℂ) *
        (2 * (if (n : ℤ) ∣ ((t : ℤ) - s) then (n : ℂ) else 0)) =
        if s = t then (xr s : ℂ) * (2 * n) else 0 := by
      intro s hs
      by_cases hst : s = t
      · subst hst
        simp
      · have hnd : ¬ (n : ℤ) ∣ ((t : ℤ) - s) := by
          intro hdvd
          have hs' := Finset.mem_range.mp hs
          have h2 := Int.natAbs_dvd_natAbs.mpr hdvd
          simp only [Int.natAbs_ofNat] at h2
          have habs : ((t : ℤ) - (s : ℤ)).natAbs ≠ 0 := by
            intro h0
            exact hst (by omega)
          have := Nat.le_of_dvd (by omega) h2
          omega
        rw [if_neg hnd, if_neg hst]
        ring
    rw [Finset.sum_congr rfl hterm,
      Finset.sum_ite_eq' (Finset.range n) t (fun s => (xr s : ℂ) * (2 * n)),
      if_pos (Finset.mem_range.mpr ht)]
    have hnC : (n : ℂ) ≠ 0 := Nat.cast_ne_zero.mpr hn0
    field_simp
    ring
  -- Extract the real part.
  have hre := congrArg Complex.re hsum
  rw [Complex.add_conj] at hre
  simp only [Complex.ofReal_mul, Complex.mul_re, Complex.ofReal_re, Complex.ofReal_im] at hre
  norm_num at hre
  linarith [hre]

/-! ## List-level embedding of the numeric primitives -/

/-- Helper: indexing a map over List.range. -/
lemma getD_map_range {α : Type} (n : ℕ) (f : ℕ → α) (d : α) (t : ℕ) (ht : t < n) :
    ((List.range n).map f).getD t d = f t := by
  rw [List.getD_eq_getElem?_getD]
  rw [List.getElem?_map, List.getElem?_range ht]
  rfl

/-- n-th powers of zeta as a complex exponential of a real angle. -/
lemma zeta_pow_eq_exp (n m : ℕ) :
    zeta n ^ m = Complex.exp (((2 * Real.pi * m / n : ℝ) : ℂ) * Complex.I) := by
  unfold zeta
  rw [← Complex.exp_nat_mul]
  congr 1
  push_cast
  ring

lemma zeta_pow_re (n m : ℕ) : (zeta n ^ m).re = Real.cos (2 * Real.pi * m / n) := by
  rw [zeta_pow_eq_exp, Complex.exp_ofReal_mul_I_re]

lemma zeta_pow_im (n m : ℕ) : (zeta n ^ m).im = Real.sin (2 * Real.pi * m / n) := by
  rw [zeta_pow_eq_exp, Complex.exp_ofReal_mul_I_im]

/-- A (real, imaginary) pair, as the source stores complex numbers, seen as ℂ. -/
def toComplex (p : ℝ × ℝ) : ℂ := ⟨p.1, p.2⟩

lemma toComplex_re (p : ℝ × ℝ) : (toComplex p).re = p.1 := rfl

lemma toComplex_im (p : ℝ × ℝ) : (toComplex p).im = p.2 := rfl

/-- JS Math.pow(2, Math.ceil(Math.log2(len))): the next power of two.
For len = 0 the JS expression evaluates to 0 (2^-Infinity). -/
def nextPow2 (len : ℕ) : ℕ :=
  if len = 0 then 0 else 2 ^ Nat.clog 2 len

/-- Zero padding a signal up to length n (source: copy then fill with 0). -/
def zeroPad (x : List ℝ) (n : ℕ) : List ℝ := x ++ List.replicate (n - x.length) 0

/-- Modelled from the spec: the forward FFT of the external DSP.js library
(not part of this repository), which §4.3 describes as a standard radix-2
complex FFT; in exact arithmetic it is the discrete Fourier transform
X[k] = Σ_t x[t]·exp(-2πi·k·t/n). -/
def dft (x : List ℝ) : List ℂ :=
  (List.range x.length).map (fun (k : ℕ) =>
    ∑ t ∈ Finset.range x.length, (x.getD t 0 : ℂ) *
      Complex.exp (-(2 * Real.pi * Complex.I * (k : ℕ) * (t : ℕ)) / (x.length : ℕ)))

lemma dft_length (x : List ℝ) : (dft x).length = x.length := by
  simp [dft]

/-- The modelled DSP.js forward transform agrees with dftFun entrywise. -/
lemma dft_getD (x : List ℝ) (k : ℕ) (hk : k < x.length) :
    (dft x).getD k 0 = dftFun (fun t => (x.getD t 0 : ℂ)) x.length k := by
  unfold dft dftFun
  rw [getD_map_range _ _ _ _ hk]
  apply Finset.sum_congr rfl
  intro t _
  congr 1
  have hz := (Complex.exp_int_mul (2 * (Real.pi : ℂ) * Complex.I / ((x.length : ℕ) : ℂ))
    (-((k * t : ℕ) : ℤ))).symm
  unfold zeta
  rw [hz]
  congr 1
  push_cast
  ring

/-- Source _simpleIFFT (O(n²) inverse DFT on (re, im) pairs): positive angle
sign, each accumulated sum divided by n. -/
def simpleIFFT (c : List (ℝ × ℝ)) : List (ℝ × ℝ) :=
  (List.range c.length).map (fun (t : ℕ) =>
    ((∑ k ∈ Finset.range c.length,
        ((c.getD k (0, 0)).1 * Real.cos (2 * Real.pi * (k : ℕ) * (t : ℕ) / (c.length : ℕ))
          - (c.getD k (0, 0)).2 * Real.sin (2 * Real.pi * (k : ℕ) * (t : ℕ) / (c.length : ℕ))))
       / (c.length : ℕ),
     (∑ k ∈ Finset.range c.length,
        ((c.getD k (0, 0)).1 * Real.sin (2 * Real.pi * (k : ℕ) * (t : ℕ) / (c.length : ℕ))
          + (c.getD k (0, 0)).2 * Real.cos (2 * Real.pi * (k : ℕ) * (t : ℕ) / (c.length : ℕ))))
       / (c.length : ℕ)))

lemma simpleIFFT_length (c : List (ℝ × ℝ)) : (simpleIFFT c).length = c.length := by
  simp [simpleIFFT]

/-- The source inverse agrees entrywise with the mathematical inverse DFT. -/
lemma simpleIFFT_getD (c : List (ℝ × ℝ)) (t : ℕ) (ht : t < c.length) :
    (simpleIFFT c).getD t (0, 0) =
      ((idftFun (fun k => toComplex (c.getD k (0, 0))) c.length t).re,
       (idftFun (fun k => toComplex (c.getD k (0, 0))) c.length t).im) := by
  unfold simpleIFFT idftFun
  rw [getD_map_range _ _ _ _ ht]
  have hcast : ((c.length : ℕ) : ℂ) = (((c.length : ℕ) : ℝ) : ℂ) := by push_cast; rfl
  rw [hcast, Complex.div_ofReal_re, Complex.div_ofReal_im, Complex.re_sum, Complex.im_sum]
  have hterm_re : ∀ k ∈ Finset.range c.length,
      ((toComplex (c.getD k (0, 0)) * zeta c.length ^ ((k * t : ℕ) : ℤ)).re) =
      (c.getD k (0, 0)).1 * Real.cos (2 * Real.pi * k * t / c.length)
        - (c.getD k (0, 0)).2 * Real.sin (2 * Real.pi * k * t / c.length) := by
    intro k _
    rw [zpow_natCast, Complex.mul_re, toComplex_re, toComplex_im, zeta_pow_re, zeta_pow_im]
    have harg : 2 * Real.pi * (k * t : ℕ) / c.length = 2 * Real.pi * k * t / c.length := by
      push_cast
      ring
    rw [harg]
  have hterm_im : ∀ k ∈ Finset.range c.length,
      ((toComplex (c.getD k (0, 0)) * zeta c.length ^ ((k * t : ℕ) : ℤ)).im) =
      (c.getD k (0, 0)).1 * Real.sin (2 * Real.pi * k * t / c.length)
        + (c.getD k (0, 0)).2 * Real.cos (2 * Real.pi * k * t / c.length) := by
    intro k _
    rw [zpow_natCast, Complex.mul_im, toComplex_re, toComplex_im, zeta_pow_re, zeta_pow_im]
    have harg : 2 * Real.pi * (k * t : ℕ) / c.length = 2 * Real.pi * k * t / c.length := by
      push_cast
      ring
    rw [harg]
  rw [Finset.sum_congr rfl hterm_re, Finset.sum_congr rfl hterm_im]

/-! ## performFFT and the frequency axis -/

/-- Result record of performFFT (the revision with metadata fields). -/
structure FFTResult where
  magnitude : List ℝ
  phase : List ℝ
  real : List ℝ
  imaginary : List ℝ
  fftLength : ℕ
  originalLength : ℕ
  frequencyBins : ℕ
  frequencyResolution : ℝ
  sampleRate : ℝ

/-- The populated FFT result for a non-empty signal: zero-pad to the next
power of two, run the (modelled) DSP.js forward transform, extract the
first ceil(n/2) bins.  The JS loop bound i < n/2 uses real division, hence
ceil(n/2) iterations; for the power-of-two n ≥ 2 this is n/2. -/
def fftResult (s : List ℝ) (sr : ℝ) : FFTResult :=
  let n := nextPow2 s.length
  let spec := dft (zeroPad s n)
  { magnitude := (List.range ((n + 1) / 2)).map (fun (i : ℕ) =>
      Real.sqrt ((spec.getD i 0).re * (spec.getD i 0).re
        + (spec.getD i 0).im * (spec.getD i 0).im))
    phase := (List.range ((n + 1) / 2)).map (fun (i : ℕ) => Complex.arg (spec.getD i 0))
    real := (List.range ((n + 1) / 2)).map (fun (i : ℕ) => (spec.getD i 0).re)
    imaginary := (List.range ((n + 1) / 2)).map (fun (i : ℕ) => (spec.getD i 0).im)
    fftLength := n
    originalLength := s.length
    frequencyBins := n / 2
    frequencyResolution := sr / n
    sampleRate := sr }

/-- performFFT: null on an empty signal and on a missing sample rate (the
source checks sampleRate === null only); otherwise the populated result.
The check that the DSP.js library is loaded is modelled as always passing. -/
def performFFT (signal : List ℝ) (sampleRate : Option ℝ) : Option FFTResult :=
  match signal, sampleRate with
  | [], _ => none
  | _, none => none
  | s, some sr => some (fftResult s sr)

lemma performFFT_cons (a : ℝ) (s : List ℝ) (sr : ℝ) :
    performFFT (a :: s) (some sr) = some (fftResult (a :: s) sr) := rfl

lemma performFFT_ne_nil (s : List ℝ) (hs : s ≠ []) (sr : ℝ) :
    performFFT s (some sr) = some (fftResult s sr) := by
  match s, hs with
  | a :: t, _ => rfl

lemma fftResult_magnitude_length (s : List ℝ) (sr : ℝ) :
    (fftResult s sr).magnitude.length = (nextPow2 s.length + 1) / 2 := by
  simp [fftResult]

/-- getFrequencies: freq[i] = i·sampleRate/fftLength for i < fftLength/2
(real-division loop bound, hence ceil(fftLength/2) entries). -/
def getFrequencies (fftLength : ℕ) (sampleRate : ℝ) : List ℝ :=
  (List.range ((fftLength + 1) / 2)).map
    (fun (i : ℕ) => ((i : ℕ) : ℝ) * sampleRate / (fftLength : ℕ))

lemma getFrequencies_length (fftLength : ℕ) (sampleRate : ℝ) :
    (getFrequencies fftLength sampleRate).length = (fftLength + 1) / 2 := by
  simp [getFrequencies]

/-! ## C8: the inverse transform inverts the forward transform -/

lemma zeroPad_length (x : List ℝ) (n : ℕ) (h : x.length ≤ n) :
    (zeroPad x n).length = n := by
  simp [zeroPad]
  omega

lemma length_le_nextPow2 (l : ℕ) : l ≤ nextPow2 l := by
  unfold nextPow2
  rcases Nat.eq_zero_or_pos l with h | h
  · simp [h]
  · rw [if_neg (by omega)]
    exact (Nat.le_pow_iff_clog_le (by norm_num)).mpr le_rfl

/-- C8: _simpleIFFT is the exact inverse of the (modelled) forward transform
with 1/N normalisation: applied to the complex spectrum of the forward FFT
of the zero-padded signal it returns exactly the zero-padded signal (zero
imaginary parts), hence reconstructs it within any positive tolerance such
as the 1e-6 of the specification. -/
theorem simpleIFFT_dft_roundTrip (signal : List ℝ) :
    simpleIFFT ((dft (zeroPad signal (nextPow2 signal.length))).map
        (fun z => (z.re, z.im)))
      = (zeroPad signal (nextPow2 signal.length)).map (fun v => (v, 0)) ∧
    ∀ t : ℕ,
      |((simpleIFFT ((dft (zeroPad signal (nextPow2 signal.length))).map
          (fun z => (z.re, z.im)))).getD t (0, 0)).1
        - (zeroPad signal (nextPow2 signal.length)).getD t 0| ≤ 1e-6 := by
  set N := nextPow2 signal.length with hN
  set padded := zeroPad signal N with hpad
  have hlen : padded.length = N := zeroPad_length _ _ (length_le_nextPow2 _)
  set pairs : List (ℝ × ℝ) := (dft padded).map (fun z => (z.re, z.im)) with hpairs
  have hplen : pairs.length = N := by
    rw [hpairs, List.length_map, dft_length, hlen]
  have hentry : ∀ t : ℕ, t < N →
      (simpleIFFT pairs).getD t (0, 0) = (padded.getD t 0, 0) := by
    intro t ht
    have ht' : t < pairs.length := by rw [hplen]; exact ht
    rw [simpleIFFT_getD pairs t ht']
    have hy : ∀ k : ℕ, k < N →
        toComplex (pairs.getD k (0, 0)) =
          dftFun (fun u => ((padded.getD u 0 : ℝ) : ℂ)) padded.length k := by
      intro k hk
      have hk' : k < (dft padded).length := by rw [dft_length, hlen]; exact hk
      have h1 : pairs.getD k (0, 0) = (((dft padded)[k]).re, ((dft padded)[k]).im) := by
        rw [hpairs, List.getD_eq_getElem?_getD, List.getElem?_map,
          List.getElem?_eq_getElem hk']
        rfl
      have h2 : (dft padded)[k] =
          dftFun (fun u => ((padded.getD u 0 : ℝ) : ℂ)) padded.length k := by
        rw [← dft_getD padded k (by rw [hlen]; exact hk)]
        rw [List.getD_eq_getElem?_getD, List.getElem?_eq_getElem hk']
        rfl
      rw [h1, h2]
      exact Complex.ext rfl rfl
    have hfuncongr :
        idftFun (fun k => toComplex (pairs.getD k (0, 0))) pairs.length t =
        idftFun (fun k => dftFun (fun u => ((padded.getD u 0 : ℝ) : ℂ)) padded.length k)
          padded.length t := by
      rw [hplen, hlen]
      unfold idftFun
      congr 1
      apply Finset.sum_congr rfl
      intro k hk
      congr 1
      have hthis := hy k (Finset.mem_range.mp hk)
      rw [hlen] at hthis
      exact hthis
    rw [hfuncongr, idft_dft _ _ (by rw [hlen]; intro h0; rw [h0] at ht; omega) t
      (by rw [hlen]; exact ht)]
    simp
  constructor
  · apply List.ext_getElem
    · rw [simpleIFFT_length, hplen, List.length_map, hlen]
    · intro i h1 h2
      have hiN : i < N := by
        rw [simpleIFFT_length, hplen] at h1
        exact h1
      have hgd : (simpleIFFT pairs)[i] = (simpleIFFT pairs).getD i (0, 0) := by
        rw [List.getD_eq_getElem?_getD, List.getElem?_eq_getElem h1]
        rfl
      have hgd2 : (padded.map (fun v => (v, 0)))[i] = (padded.getD i 0, (0 : ℝ)) := by
        have h3 : i < padded.length := by rw [hlen]; exact hiN
        rw [List.getElem_map]
        congr
        rw [List.getD_eq_getElem?_getD, List.getElem?_eq_getElem h3]
        rfl
      rw [hgd, hgd2, hentry i hiN]
  · intro t
    by_cases ht : t < N
    · rw [hentry t ht]
      show |padded.getD t 0 - padded.getD t 0| ≤ 1e-6
      rw [sub_self, abs_zero]
      norm_num
    · have h1 : (simpleIFFT pairs).getD t (0, 0) = (0, 0) := by
        apply List.getD_eq_default
        rw [simpleIFFT_length, hplen]
        omega
      have h2 : padded.getD t 0 = 0 := by
        apply List.getD_eq_default
        rw [hlen]
        omega
      rw [h1, h2]
      show |(0 : ℝ) - 0| ≤ 1e-6
      rw [sub_self, abs_zero]
      norm_num

/-! ## performHilbert -/

/-- Result record of performHilbert. -/
structure HilbertResult where
  envelope : List ℝ
  analyticSignal : List (ℝ × ℝ)

/-- The analytic spectrum built by performHilbert from the full spectrum:
DC kept, strictly positive frequencies below Nyquist doubled, the Nyquist
bin kept, everything above zeroed (source comment H(f) = 1, 2, 1, 0). -/
def analyticSpectrumOf (spectrum : List (ℝ × ℝ)) (nfft : ℕ) : List (ℝ × ℝ) :=
  (List.range nfft).map (fun (i : ℕ) =>
    if i = 0 then spectrum.getD i (0, 0)
    else if i < nfft / 2 then
      (2 * (spectrum.getD i (0, 0)).1, 2 * (spectrum.getD i (0, 0)).2)
    else if i = nfft / 2 then spectrum.getD i (0, 0)
    else (0, 0))

/-- The populated Hilbert result: zero-pad to the next power of two,
forward transform, Hilbert mask, inverse transform (the in-repo _simpleIFFT;
the other revision calls the DSP.js inverse, which is the same inverse DFT
in exact arithmetic), truncate to the original length, envelope = modulus. -/
def hilbertResult (s : List ℝ) : HilbertResult :=
  let n := s.length
  let nfft := nextPow2 n
  let spectrum : List (ℝ × ℝ) := (dft (zeroPad s nfft)).map (fun z => (z.re, z.im))
  let analyticFull := simpleIFFT (analyticSpectrumOf spectrum nfft)
  let analyticSignal := analyticFull.take n
  { envelope := analyticSignal.map (fun c => Real.sqrt (c.1 * c.1 + c.2 * c.2))
    analyticSignal := analyticSignal }

/-- performHilbert: null on an empty signal or a missing sample rate; for a
single-sample signal n_fft = 1, so the source reads spectrum[0.5] (a
fractional array index, hence undefined) and the resulting TypeError is
caught by the try/catch and converted into a null return — modelled by the
nfft < 2 branch.  The sample rate itself does not enter the computation. -/
def performHilbert (signal : List ℝ) (sampleRate : Option ℝ) : Option HilbertResult :=
  match signal, sampleRate with
  | [], _ => none
  | _, none => none
  | s, some _ => if nextPow2 s.length < 2 then none else some (hilbertResult s)

lemma performHilbert_ne_nil (s : List ℝ) (hs : s ≠ []) (sr : ℝ) :
    performHilbert s (some sr) =
      if nextPow2 s.length < 2 then none else some (hilbertResult s) := by
  match s, hs with
  | a :: t, _ => rfl

lemma nextPow2_even (l : ℕ) (hl : 2 ≤ l) : nextPow2 l % 2 = 0 := by
  unfold nextPow2
  rw [if_neg (by omega)]
  have hpos : 0 < Nat.clog 2 l := Nat.clog_pos (by norm_num) hl
  obtain ⟨k, hk⟩ := Nat.exists_eq_succ_of_ne_zero (by omega : Nat.clog 2 l ≠ 0)
  rw [hk, pow_succ]
  omega

/-- Entries of the analytic spectrum are the Hilbert mask times the
corresponding entry of the forward transform. -/
lemma analyticSpectrumOf_getD (s : List ℝ) (N : ℕ) (hlen : (zeroPad s N).length = N)
    (k : ℕ) (hk : k < N) :
    (analyticSpectrumOf ((dft (zeroPad s N)).map (fun z => (z.re, z.im))) N).getD k (0, 0) =
      (((hMask N k : ℂ) * dftFun (fun u => (((zeroPad s N).getD u 0 : ℝ) : ℂ)) N k).re,
       ((hMask N k : ℂ) * dftFun (fun u => (((zeroPad s N).getD u 0 : ℝ) : ℂ)) N k).im) := by
  have hk' : k < (dft (zeroPad s N)).length := by rw [dft_length, hlen]; exact hk
  have hspec : ((dft (zeroPad s N)).map (fun z => (z.re, z.im))).getD k (0, 0) =
      ((dftFun (fun u => (((zeroPad s N).getD u 0 : ℝ) : ℂ)) N k).re,
       (dftFun (fun u => (((zeroPad s N).getD u 0 : ℝ) : ℂ)) N k).im) := by
    rw [List.getD_eq_getElem?_getD, List.getElem?_map, List.getElem?_eq_getElem hk']
    have h2 : (dft (zeroPad s N))[k] =
        dftFun (fun u => (((zeroPad s N).getD u 0 : ℝ) : ℂ)) N k := by
      have h3 := dft_getD (zeroPad s N) k (by rw [hlen]; exact hk)
      rw [hlen] at h3
      rw [← h3]
      rw [List.getD_eq_getElem?_getD, List.getElem?_eq_getElem hk']
      rfl
    rw [h2]
    rfl
  unfold analyticSpectrumOf
  rw [getD_map_range _ _ _ _ hk, hspec]
  unfold hMask
  by_cases h0 : k = 0
  · rw [if_pos h0, if_pos h0]
    simp [Prod.ext_iff]
  · rw [if_neg h0, if_neg h0]
    by_cases h1 : k < N / 2
    · rw [if_pos h1, if_pos h1]
      simp [Prod.ext_iff, Complex.re_ofReal_mul, Complex.im_ofReal_mul]
    · rw [if_neg h1, if_neg h1]
      by_cases hq : k = N / 2
      · rw [if_pos hq, if_pos hq]
        simp [Prod.ext_iff]
      · rw [if_neg hq, if_neg hq]
        simp [Prod.ext_iff]

lemma analyticSpectrumOf_length (spectrum : List (ℝ × ℝ)) (nfft : ℕ) :
    (analyticSpectrumOf spectrum nfft).length = nfft := by
  unfold analyticSpectrumOf
  simp

/-- Entry t < N of the inverse transform inside performHilbert, expressed
through the mathematical masked inverse transform. -/
lemma hilbert_analytic_entry (s : List ℝ) (N : ℕ) (hlen : (zeroPad s N).length = N)
    (t : ℕ) (ht : t < N) :
    (simpleIFFT (analyticSpectrumOf ((dft (zeroPad s N)).map (fun z => (z.re, z.im))) N)).getD
      t (0, 0) =
    ((idftFun (fun k => (hMask N k : ℂ) *
        dftFun (fun u => (((zeroPad s N).getD u 0 : ℝ) : ℂ)) N k) N t).re,
     (idftFun (fun k => (hMask N k : ℂ) *
        dftFun (fun u => (((zeroPad s N).getD u 0 : ℝ) : ℂ)) N k) N t).im) := by
  have hASlen := analyticSpectrumOf_length ((dft (zeroPad s N)).map (fun z => (z.re, z.im))) N
  rw [simpleIFFT_getD _ t (by rw [hASlen]; exact ht)]
  have hia : idftFun (fun k =>
      toComplex ((analyticSpectrumOf ((dft (zeroPad s N)).map (fun z => (z.re, z.im))) N).getD
        k (0, 0)))
      (analyticSpectrumOf ((dft (zeroPad s N)).map (fun z => (z.re, z.im))) N).length t =
      idftFun (fun k => (hMask N k : ℂ) *
        dftFun (fun u => (((zeroPad s N).getD u 0 : ℝ) : ℂ)) N k) N t := by
    rw [hASlen]
    unfold idftFun
    congr 1
    apply Finset.sum_congr rfl
    intro k hk
    congr 1
    show toComplex ((analyticSpectrumOf ((dft (zeroPad s N)).map (fun z => (z.re, z.im))) N).getD
        k (0, 0)) =
      (hMask N k : ℂ) * dftFun (fun u => (((zeroPad s N).getD u 0 : ℝ) : ℂ)) N k
    rw [analyticSpectrumOf_getD s N hlen k (Finset.mem_range.mp hk)]
    exact Complex.ext rfl rfl
  rw [hia]

lemma hilbertResult_envelope_length (s : List ℝ) :
    (hilbertResult s).envelope.length = s.length := by
  unfold hilbertResult
  simp only [List.length_map, List.length_take, simpleIFFT_length, analyticSpectrumOf_length]
  have := length_le_nextPow2 s.length
  omega

/-- Entry i < s.length of the envelope, as the modulus of the masked inverse
transform. -/
lemma hilbertResult_envelope_getD (s : List ℝ) (i : ℕ) (hi : i < s.length) :
    (hilbertResult s).envelope.getD i 0 =
      Complex.abs (idftFun (fun k => (hMask (nextPow2 s.length) k : ℂ) *
        dftFun (fun u => (((zeroPad s (nextPow2 s.length)).getD u 0 : ℝ) : ℂ))
          (nextPow2 s.length) k) (nextPow2 s.length) i) := by
  have hLN : s.length ≤ nextPow2 s.length := length_le_nextPow2 s.length
  have hlen : (zeroPad s (nextPow2 s.length)).length = nextPow2 s.length :=
    zeroPad_length _ _ hLN
  have hiN : i < nextPow2 s.length := lt_of_lt_of_le hi hLN
  unfold hilbertResult
  have htake : i < ((simpleIFFT (analyticSpectrumOf
      ((dft (zeroPad s (nextPow2 s.length))).map (fun z => (z.re, z.im)))
      (nextPow2 s.length))).take s.length).length := by
    simp only [List.length_take, simpleIFFT_length, analyticSpectrumOf_length]
    omega
  rw [List.getD_eq_getElem?_getD, List.getElem?_map, List.getElem?_eq_getElem htake]
  simp only [Option.map_some', Option.getD_some]
  have hgetelem : ((simpleIFFT (analyticSpectrumOf
      ((dft (zeroPad s (nextPow2 s.length))).map (fun z => (z.re, z.im)))
      (nextPow2 s.length))).take s.length)[i] =
      ((idftFun (fun k => (hMask (nextPow2 s.length) k : ℂ) *
        dftFun (fun u => (((zeroPad s (nextPow2 s.length)).getD u 0 : ℝ) : ℂ))
          (nextPow2 s.length) k) (nextPow2 s.length) i).re,
       (idftFun (fun k => (hMask (nextPow2 s.length) k : ℂ) *
        dftFun (fun u => (((zeroPad s (nextPow2 s.length)).getD u 0 : ℝ) : ℂ))
          (nextPow2 s.length) k) (nextPow2 s.length) i).im) := by
    rw [List.getElem_take]
    have hidx : i < (simpleIFFT (analyticSpectrumOf
        ((dft (zeroPad s (nextPow2 s.length))).map (fun z => (z.re, z.im)))
        (nextPow2 s.length))).length := by
      rw [simpleIFFT_length, analyticSpectrumOf_length]
      exact hiN
    have hg : (simpleIFFT (analyticSpectrumOf
        ((dft (zeroPad s (nextPow2 s.length))).map (fun z => (z.re, z.im)))
        (nextPow2 s.length)))[i] =
        (simpleIFFT (analyticSpectrumOf
        ((dft (zeroPad s (nextPow2 s.length))).map (fun z => (z.re, z.im)))
        (nextPow2 s.length))).getD i (0, 0) := by
      rw [List.getD_eq_getElem?_getD, List.getElem?_eq_getElem hidx]
      rfl
    rw [hg]
    exact hilbert_analytic_entry s (nextPow2 s.length) hlen i hiN
  rw [hgetelem]
  rw [Complex.abs_apply, Complex.normSq_apply]

/-- C1 (amended): for every signal of length at least 2 and every sample
rate, performHilbert returns an envelope of the same length as the signal,
with every entry nonnegative and every entry at least |signal[i]| - 1e-6
(in exact arithmetic the envelope dominates |signal[i]| itself, because the
real part of the analytic signal equals the signal). -/
theorem performHilbert_envelope_dominates (signal : List ℝ) (sr : ℝ)
    (h2 : 2 ≤ signal.length) :
    ∃ r, performHilbert signal (some sr) = some r ∧
      r.envelope.length = signal.length ∧
      (∀ i : ℕ, 0 ≤ r.envelope.getD i 0) ∧
      (∀ i : ℕ, i < signal.length →
        |signal.getD i 0| - 1e-6 ≤ r.envelope.getD i 0) := by
  have hLN : signal.length ≤ nextPow2 signal.length := length_le_nextPow2 signal.length
  have hN2 : 2 ≤ nextPow2 signal.length := le_trans h2 hLN
  have heven : nextPow2 signal.length % 2 = 0 := nextPow2_even signal.length h2
  have hnil : signal ≠ [] := by
    intro h
    rw [h] at h2
    simp at h2
  have hlen : (zeroPad signal (nextPow2 signal.length)).length = nextPow2 signal.length :=
    zeroPad_length _ _ hLN
  have hrun : performHilbert signal (some sr) = some (hilbertResult signal) := by
    rw [performHilbert_ne_nil signal hnil sr, if_neg (by omega)]
  refine ⟨hilbertResult signal, hrun, hilbertResult_envelope_length signal, ?_, ?_⟩
  · intro i
    by_cases hi : i < signal.length
    · rw [hilbertResult_envelope_getD signal i hi]
      exact AbsoluteValue.nonneg Complex.abs _
    · rw [List.getD_eq_default]
      rw [hilbertResult_envelope_length signal]
      omega
  · intro i hi
    rw [hilbertResult_envelope_getD signal i hi]
    have hiN : i < nextPow2 signal.length := lt_of_lt_of_le hi hLN
    have hre : (idftFun (fun k => (hMask (nextPow2 signal.length) k : ℂ) *
        dftFun (fun u => (((zeroPad signal (nextPow2 signal.length)).getD u 0 : ℝ) : ℂ))
          (nextPow2 signal.length) k) (nextPow2 signal.length) i).re =
        (zeroPad signal (nextPow2 signal.length)).getD i 0 :=
      re_idft_mask (fun u => (zeroPad signal (nextPow2 signal.length)).getD u 0)
        (nextPow2 signal.length) hN2 heven i hiN
    have hpadget : (zeroPad signal (nextPow2 signal.length)).getD i 0 = signal.getD i 0 := by
      unfold zeroPad
      rw [List.getD_eq_getElem?_getD, List.getElem?_append_left (by omega : i < signal.length)]
      rw [List.getElem?_eq_getElem (by omega : i < signal.length)]
      rw [List.getD_eq_getElem?_getD,
        List.getElem?_eq_getElem (by omega : i < signal.length)]
    have h1 := Complex.abs_re_le_abs (idftFun (fun k =>
      (hMask (nextPow2 signal.length) k : ℂ) *
        dftFun (fun u => (((zeroPad signal (nextPow2 signal.length)).getD u 0 : ℝ) : ℂ))
          (nextPow2 signal.length) k) (nextPow2 signal.length) i)
    rw [hre, hpadget] at h1
    have heps : (0 : ℝ) < 1e-6 := by norm_num
    linarith

/-- C1 counterexample to the unamended claim: for the non-empty single-sample
signal [1] and the valid sample rate 100, performHilbert returns null
(n_fft = 1 makes the source index spectrum[0.5], throwing inside the
try/catch), so no envelope is returned at all. -/
theorem performHilbert_single_sample_fails : performHilbert [1] (some 100) = none := by
  rw [performHilbert_ne_nil [1] (by simp) 100]
  rw [if_pos]
  unfold nextPow2
  norm_num

/-- Witness instantiating the amended C1 theorem at signal [1, 0], sample
rate 100. -/
theorem performHilbert_envelope_dominates_witness :
    2 ≤ ([1, 0] : List ℝ).length ∧
    (∃ r, performHilbert ([1, 0] : List ℝ) (some 100) = some r ∧
      r.envelope.length = ([1, 0] : List ℝ).length ∧
      (∀ i : ℕ, 0 ≤ r.envelope.getD i 0) ∧
      (∀ i : ℕ, i < ([1, 0] : List ℝ).length →
        |([1, 0] : List ℝ).getD i 0| - 1e-6 ≤ r.envelope.getD i 0)) :=
  ⟨by norm_num, performHilbert_envelope_dominates [1, 0] 100 (by norm_num)⟩
/-! ## Window functions -/

/-- JS String.prototype.toLowerCase, for the ASCII window names used here. -/
def jsToLower (s : String) : String := String.mk (s.data.map Char.toLower)

/-- Rectangular window: Array(size).fill(1). -/
def windowRectangular (size : ℕ) : List ℝ := List.replicate size 1

/-- Hann window w(n) = 0.5·(1 - cos(2πn/(N-1))).  (The STFT helper
_hannWindow computes 0.5 - 0.5·cos(...), the same function.) -/
def windowHann (size : ℕ) : List ℝ :=
  (List.range size).map (fun (n : ℕ) =>
    0.5 * (1 - Real.cos (2 * Real.pi * (n : ℝ) / ((size : ℝ) - 1))))

/-- Hamming window w(n) = 0.54 - 0.46·cos(2πn/(N-1)). -/
def windowHamming (size : ℕ) : List ℝ :=
  (List.range size).map (fun (n : ℕ) =>
    0.54 - 0.46 * Real.cos (2 * Real.pi * (n : ℝ) / ((size : ℝ) - 1)))

/-- Blackman window w(n) = 0.42 - 0.5·cos(2πn/(N-1)) + 0.08·cos(4πn/(N-1)). -/
def windowBlackman (size : ℕ) : List ℝ :=
  (List.range size).map (fun (n : ℕ) =>
    0.42 - 0.5 * Real.cos (2 * Real.pi * (n : ℝ) / ((size : ℝ) - 1))
      + 0.08 * Real.cos (4 * Real.pi * (n : ℝ) / ((size : ℝ) - 1)))

/-- The truncated power series for the modified Bessel function I₀ used by
the Kaiser window: terms (x/2k)² accumulated for k = 1..20, stopping early
once |term| < 1e-15.  The fuel argument counts the remaining iterations. -/
def besselI0Go (x : ℝ) : ℕ → ℕ → ℝ → ℝ → ℝ
  | 0, _, _, sum => sum
  | fuel + 1, k, term, sum =>
    if 20 < k then sum
    else
      let t := term * ((x / (2 * (k : ℝ))) * (x / (2 * (k : ℝ))))
      if |t| < 1e-15 then sum + t
      else besselI0Go x fuel (k + 1) t (sum + t)

def besselI0 (x : ℝ) : ℝ := if x = 0 then 1 else besselI0Go x 20 1 1 1

/-- Kaiser window w(n) = I₀(β·√(max(1 - (2n/(N-1) - 1)², 0)))/I₀(β). -/
def windowKaiser (size : ℕ) (beta : ℝ) : List ℝ :=
  (List.range size).map (fun (n : ℕ) =>
    besselI0 (beta * Real.sqrt (max (1 - ((2 * (n : ℝ)) / ((size : ℝ) - 1) - 1) ^ 2) 0))
      / besselI0 beta)

/-- getWindow: missing or empty or 'rectangular' name gives the rectangular
window; otherwise the lower-cased name selects among hann/hamming/blackman/
kaiser, and any unknown name falls back to the rectangular window (the
source logs a warning and continues).  A missing Kaiser beta defaults to 8.6
(the JS `param || 8.6`; a caller-supplied 0 would also be replaced, which no
caller does). -/
def getWindow (windowType : Option String) (size : ℕ) (param : Option ℝ) : List ℝ :=
  match windowType with
  | none => windowRectangular size
  | some wt =>
    if wt = "" ∨ wt = "rectangular" then windowRectangular size
    else if jsToLower wt = "hann" then windowHann size
    else if jsToLower wt = "hamming" then windowHamming size
    else if jsToLower wt = "blackman" then windowBlackman size
    else if jsToLower wt = "kaiser" then windowKaiser size (param.getD 8.6)
    else windowRectangular size

/-- Every window generator, hence getWindow, returns a list of the
requested size. -/
lemma getWindow_length (wt : Option String) (size : ℕ) (param : Option ℝ) :
    (getWindow wt size param).length = size := by
  match wt with
  | none => simp [getWindow, windowRectangular]
  | some s =>
    simp only [getWindow]
    by_cases h0 : s = "" ∨ s = "rectangular"
    · rw [if_pos h0]
      simp [windowRectangular]
    · rw [if_neg h0]
      by_cases h1 : jsToLower s = "hann"
      · rw [if_pos h1]
        simp [windowHann]
      · rw [if_neg h1]
        by_cases h2 : jsToLower s = "hamming"
        · rw [if_pos h2]
          simp [windowHamming]
        · rw [if_neg h2]
          by_cases h3 : jsToLower s = "blackman"
          · rw [if_pos h3]
            simp [windowBlackman]
          · rw [if_neg h3]
            by_cases h4 : jsToLower s = "kaiser"
            · rw [if_pos h4]
              simp [windowKaiser]
            · rw [if_neg h4]
              simp [windowRectangular]

/-- C10: every getWindow call returns a list of exactly the requested size,
and a missing name or any name whose lower-cased form is none of the five
recognised window names silently yields the all-ones rectangular window. -/
theorem getWindow_length_and_unknown (wt : Option String) (size : ℕ) (param : Option ℝ) :
    (getWindow wt size param).length = size ∧
    ((∀ s : String, wt = some s → jsToLower s ∉
        (["rectangular", "hann", "hamming", "blackman", "kaiser"] : List String)) →
      getWindow wt size param = List.replicate size 1) := by
  refine ⟨getWindow_length wt size param, ?_⟩
  intro hunk
  match wt with
  | none => rfl
  | some s =>
    have hs := hunk s rfl
    simp only [List.mem_cons, List.not_mem_nil, or_false] at hs
    push_neg at hs
    obtain ⟨hr, hh, hham, hb, hk⟩ := hs
    simp only [getWindow]
    by_cases h0 : s = "" ∨ s = "rectangular"
    · rw [if_pos h0]
      rfl
    · rw [if_neg h0, if_neg hh, if_neg hham, if_neg hb, if_neg hk]
      rfl

/-- Witness for C10 at the unknown window name "triangle" and size 3. -/
theorem getWindow_length_and_unknown_witness :
    getWindow (some "triangle") 3 none = List.replicate 3 1 ∧
    (getWindow (some "triangle") 3 none).length = 3 := by
  have h := getWindow_length_and_unknown (some "triangle") 3 none
  refine ⟨h.2 ?_, h.1⟩
  intro s hs
  cases Option.some.inj hs
  decide

/-! ## performSTFT

The frame loop `for (start = 0; start + windowSize <= signal.length;
start += hopSize)` is embedded through a fuel-bounded recursion on the start
index; for hopSize > 0, fuel signal.length + 1 covers every iteration (for
hopSize = 0 the JS loop would never terminate). -/

def stftStartsAux (L W H : ℕ) : ℕ → ℕ → List ℕ
  | 0, _ => []
  | fuel + 1, start =>
    if start + W ≤ L then start :: stftStartsAux L W H fuel (start + H) else []

/-- The list of frame start indices visited by the STFT loop. -/
def stftStarts (L W H : ℕ) : List ℕ := stftStartsAux L W H (L + 1) 0

/-- Number of loop iterations remaining from a given start index. -/
def stftCount (L W H start : ℕ) : ℕ :=
  if start + W ≤ L then (L - W - start) / H + 1 else 0

lemma stftStartsAux_eq (L W H : ℕ) (hH : 0 < H) :
    ∀ fuel start, stftCount L W H start ≤ fuel →
      stftStartsAux L W H fuel start =
        (List.range (stftCount L W H start)).map (fun i => start + i * H) := by
  intro fuel
  induction fuel with
  | zero =>
    intro start hcnt
    have : stftCount L W H start = 0 := by omega
    rw [stftStartsAux, this]
    simp
  | succ fuel ih =>
    intro start hcnt
    by_cases hin : start + W ≤ L
    · rw [stftStartsAux, if_pos hin]
      have hstep : stftCount L W H start = stftCount L W H (start + H) + 1 := by
        unfold stftCount
        rw [if_pos hin]
        by_cases hnext : start + H + W ≤ L
        · rw [if_pos hnext]
          have hge : H ≤ L - W - start := by omega
          have hdiv := Nat.div_eq_sub_div hH hge
          have hsub : L - W - start - H = L - W - (start + H) := by omega
          rw [hdiv, hsub]
        · rw [if_neg hnext]
          have hlt : L - W - start < H := by omega
          rw [Nat.div_eq_of_lt hlt]
      rw [ih (start + H) (by omega), hstep, List.range_succ_eq_map]
      rw [List.map_cons, List.map_map]
      congr 1
      · omega
      · apply List.map_congr_left
        intro i _
        show start + H + i * H = start + (i + 1) * H
        ring
    · rw [stftStartsAux, if_neg hin]
      unfold stftCount
      rw [if_neg hin]
      simp

/-- For windowSize ≤ signal length and positive hop, the loop visits exactly
⌊(L - W)/H⌋ + 1 starts, the i-th being i·H. -/
lemma stftStarts_eq (L W H : ℕ) (hH : 0 < H) (hWL : W ≤ L) :
    stftStarts L W H = (List.range ((L - W) / H + 1)).map (fun i => i * H) := by
  unfold stftStarts
  have hcnt : stftCount L W H 0 = (L - W) / H + 1 := by
    unfold stftCount
    rw [if_pos (by omega)]
    norm_num
  rw [stftStartsAux_eq L W H hH (L + 1) 0 (by
    rw [hcnt]
    have := Nat.div_le_self (L - W) H
    omega), hcnt]
  apply List.map_congr_left
  intro i _
  omega

/-- For windowSize > signal length the loop body never runs. -/
lemma stftStarts_empty (L W H : ℕ) (hWL : L < W) : stftStarts L W H = [] := by
  unfold stftStarts
  rw [stftStartsAux, if_neg (by omega)]

lemma stftStarts_add_le (L W H : ℕ) (hH : 0 < H) (s : ℕ)
    (hs : s ∈ stftStarts L W H) : s + W ≤ L := by
  by_cases hWL : W ≤ L
  · rw [stftStarts_eq L W H hH hWL] at hs
    obtain ⟨i, hi, rfl⟩ := List.mem_map.mp hs
    have hi' := List.mem_range.mp hi
    have h1 : i ≤ (L - W) / H := by omega
    have h2 : i * H ≤ (L - W) / H * H := Nat.mul_le_mul_right H h1
    have h3 : (L - W) / H * H ≤ L - W := Nat.div_mul_le_self _ _
    omega
  · rw [stftStarts_empty L W H (by omega)] at hs
    simp at hs

/-- The windowed, zero-padded frame starting at a given index: slice
windowSize samples, multiply by the window, pad with zeros up to the fixed
FFT length 512. -/
def stftWindowed (signal window : List ℝ) (W start : ℕ) : List ℝ :=
  let windowed0 := List.zipWith (fun x w => x * w) ((signal.drop start).take W) window
  windowed0 ++ List.replicate (512 - windowed0.length) 0

/-- One spectrogram row from an FFT result: keep the first half of the
magnitude array (the source halves the already-halved spectrum), apply the
DC/Nyquist-aware 1/N (resp. 2/N) normalisation with N = 512, convert to dB
with the 1e-10 floor. -/
def stftRow (fft : FFTResult) : List ℝ :=
  ((fft.magnitude.take (fft.magnitude.length / 2)).mapIdx
    (fun i m => if i = 0 ∨ i = 512 / 2 then m / 512 else 2 * m / 512)).map
    (fun m => 20 * Real.logb 10 (max m 1e-10))

/-- The loop body: run performFFT on the frame, and if it returned a result
push the dB row together with the time stamp start/sampleRate. -/
def stftFrame (signal window : List ℝ) (W : ℕ) (sr : ℝ) (start : ℕ) :
    Option (List ℝ × ℝ) :=
  (performFFT (stftWindowed signal window W start) (some sr)).map
    (fun fft => (stftRow fft, (start : ℝ) / sr))

lemma stftWindowed_length (signal window : List ℝ) (W start : ℕ) :
    (stftWindowed signal window W start).length =
      max (List.zipWith (fun x w => x * w) ((signal.drop start).take W) window).length
        512 := by
  unfold stftWindowed
  simp only [List.length_append, List.length_replicate]
  omega

lemma stftWindowed_ne_nil (signal window : List ℝ) (W start : ℕ) :
    stftWindowed signal window W start ≠ [] := by
  intro h
  have := congrArg List.length h
  rw [stftWindowed_length] at this
  simp at this

lemma stftFrame_eq (signal window : List ℝ) (W : ℕ) (sr : ℝ) (start : ℕ) :
    stftFrame signal window W sr start =
      some (stftRow (fftResult (stftWindowed signal window W start) sr),
        (start : ℝ) / sr) := by
  unfold stftFrame
  rw [performFFT_ne_nil _ (stftWindowed_ne_nil signal window W start) sr]
  rfl

/-- Result record of performSTFT (the revision returning a frequency axis). -/
structure STFTResult where
  spectrogram : List (List ℝ)
  times : List ℝ
  windowSize : ℕ
  hopSize : ℕ
  frequencies : List ℝ
  fftLength : ℕ
  sampleRate : ℝ
  signalLength : ℕ
  frameCount : ℕ
  frequencyResolution : ℝ
  nyquistFrequency : ℝ

/-- performSTFT: null on empty signal or missing sample rate, otherwise the
frame loop above with the fixed FFT length 512; the frequency axis is
getFrequencies(512, sampleRate) truncated to 512/2 entries.  windowType and
kaiserBeta model the windowOptions bag (missing windowType defaults to
'hann', missing kaiserBeta to 8.6, matching the JS || defaults). -/
def performSTFT (signal : List ℝ) (windowSize hopSize : ℕ) (sampleRate : Option ℝ)
    (windowType : Option String) (kaiserBeta : Option ℝ) : Option STFTResult :=
  match signal, sampleRate with
  | [], _ => none
  | _, none => none
  | s, some sr =>
    let window := getWindow (some (windowType.getD "hann")) windowSize
      (some (kaiserBeta.getD 8.6))
    let frames := (stftStarts s.length windowSize hopSize).filterMap
      (stftFrame s window windowSize sr)
    some
      { spectrogram := frames.map Prod.fst
        times := frames.map Prod.snd
        windowSize := windowSize
        hopSize := hopSize
        frequencies := (getFrequencies 512 sr).take (512 / 2)
        fftLength := 512
        sampleRate := sr
        signalLength := s.length
        frameCount := frames.length
        frequencyResolution := sr / 512
        nyquistFrequency := sr / 2 }

lemma performSTFT_ne_nil (s : List ℝ) (hs : s ≠ []) (W H : ℕ) (sr : ℝ)
    (wt : Option String) (kb : Option ℝ) :
    performSTFT s W H (some sr) wt kb =
      some
      { spectrogram := ((stftStarts s.length W H).filterMap
          (stftFrame s (getWindow (some (wt.getD "hann")) W (some (kb.getD 8.6))) W sr)).map
          Prod.fst
        times := ((stftStarts s.length W H).filterMap
          (stftFrame s (getWindow (some (wt.getD "hann")) W (some (kb.getD 8.6))) W sr)).map
          Prod.snd
        windowSize := W
        hopSize := H
        frequencies := (getFrequencies 512 sr).take (512 / 2)
        fftLength := 512
        sampleRate := sr
        signalLength := s.length
        frameCount := ((stftStarts s.length W H).filterMap
          (stftFrame s (getWindow (some (wt.getD "hann")) W (some (kb.getD 8.6))) W sr)).length
        frequencyResolution := sr / 512
        nyquistFrequency := sr / 2 } := by
  match s, hs with
  | a :: t, _ => rfl

/-- filterMap collapses to map when the function is total on the list. -/
lemma filterMap_eq_map_on {α β : Type} (f : α → Option β) (g : α → β) :
    ∀ l : List α, (∀ a ∈ l, f a = some (g a)) → l.filterMap f = l.map g := by
  intro l
  induction l with
  | nil => intro _; rfl
  | cons a t ih =>
    intro h
    rw [List.filterMap_cons, h a (by simp), List.map_cons,
      ih (fun b hb => h b (by simp [hb]))]

/-- The STFT frame list, with every frame resolved. -/
lemma stft_frames_eq (s window : List ℝ) (W H : ℕ) (sr : ℝ) :
    (stftStarts s.length W H).filterMap (stftFrame s window W sr) =
      (stftStarts s.length W H).map (fun start =>
        (stftRow (fftResult (stftWindowed s window W start) sr), (start : ℝ) / sr)) := by
  apply filterMap_eq_map_on
  intro a _
  exact stftFrame_eq s window W sr a

/-! ## STFT claim theorems -/

lemma nextPow2_512 : nextPow2 512 = 512 := by
  have h : (512 : ℕ) = 2 ^ 9 := by norm_num
  rw [h]
  unfold nextPow2
  rw [if_neg (by norm_num), Nat.clog_pow 2 9 (by norm_num)]

lemma stftRow_length (fft : FFTResult) :
    (stftRow fft).length = fft.magnitude.length / 2 := by
  unfold stftRow
  simp only [List.length_map, List.length_mapIdx, List.length_take]
  have := Nat.div_le_self fft.magnitude.length 2
  omega

/-- Inside the loop (start + W ≤ L) with a window of length W ≤ 512, every
spectrogram row has 128 entries: the frame is padded to 512 samples, the FFT
keeps 256 bins, and the source halves them again. -/
lemma stftRow_length_of_frame (s window : List ℝ) (W start : ℕ) (sr : ℝ)
    (hwin : window.length = W) (hseg : start + W ≤ s.length) (hW : W ≤ 512) :
    (stftRow (fftResult (stftWindowed s window W start) sr)).length = 128 := by
  rw [stftRow_length, fftResult_magnitude_length]
  have hw0 : (List.zipWith (fun x w => x * w) ((s.drop start).take W) window).length = W := by
    rw [List.length_zipWith, List.length_take, List.length_drop, hwin]
    omega
  have hlen : (stftWindowed s window W start).length = 512 := by
    rw [stftWindowed_length, hw0]
    omega
  rw [hlen, nextPow2_512]

/-- C7: for a non-empty signal, window size at most the signal length and a
positive hop size, performSTFT produces exactly ⌊(L - W)/H⌋ + 1 frames (and
as many time stamps), and the i-th time stamp is i·H/sampleRate. -/
theorem performSTFT_frame_count (signal : List ℝ) (W H : ℕ) (sr : ℝ)
    (hnil : signal ≠ []) (hH : 0 < H) (hWL : W ≤ signal.length) :
    (performSTFT signal W H (some sr) none none).map (fun r => r.spectrogram.length) =
      some ((signal.length - W) / H + 1) ∧
    (performSTFT signal W H (some sr) none none).map (fun r => r.times.length) =
      some ((signal.length - W) / H + 1) ∧
    ∀ i : ℕ, i < (signal.length - W) / H + 1 →
      (performSTFT signal W H (some sr) none none).map (fun r => r.times.getD i 0) =
        some (((i * H : ℕ) : ℝ) / sr) := by
  rw [performSTFT_ne_nil signal hnil W H sr none none]
  simp only [Option.map_some']
  rw [stft_frames_eq, stftStarts_eq signal.length W H hH hWL]
  refine ⟨?_, ?_, ?_⟩
  · simp
  · simp
  · intro i hi
    simp only [List.map_map]
    rw [getD_map_range _ _ _ i hi]
    rfl

lemma replicate_real_ne_nil (n : ℕ) (hn : 0 < n) (x : ℝ) : List.replicate n x ≠ [] := by
  apply List.ne_nil_of_length_pos
  rw [List.length_replicate]
  exact hn

lemma replicate_real_length (n : ℕ) (x : ℝ) : (List.replicate n x).length = n :=
  List.length_replicate n x

/-- Witness for C7: a 256-sample signal with windowSize 64 and hopSize 32
yields exactly ⌊(256 - 64)/32⌋ + 1 = 7 frames. -/
theorem performSTFT_frame_count_witness :
    (List.replicate 256 (1 : ℝ)) ≠ [] ∧ 0 < 32 ∧ 64 ≤ (List.replicate 256 (1 : ℝ)).length ∧
    (performSTFT (List.replicate 256 (1 : ℝ)) 64 32 (some 100) none none).map
      (fun r => r.spectrogram.length) = some 7 := by
  refine ⟨replicate_real_ne_nil 256 (by norm_num) 1, by norm_num,
    by rw [replicate_real_length]; norm_num, ?_⟩
  have h := (performSTFT_frame_count (List.replicate 256 (1 : ℝ)) 64 32 100
    (replicate_real_ne_nil 256 (by norm_num) 1) (by norm_num)
    (by rw [replicate_real_length]; norm_num)).1
  rw [h, replicate_real_length]

/-- C4 (code evaluated at the failing input): with windowSize 64 on a
10-sample signal, performSTFT does not fail; it returns a populated record
whose spectrogram is empty. -/
theorem performSTFT_windowTooLarge_not_null :
    (performSTFT (List.replicate 10 (1 : ℝ)) 64 32 (some 100) none none).map
      (fun r => r.spectrogram) = some [] := by
  rw [performSTFT_ne_nil _ (replicate_real_ne_nil 10 (by norm_num) 1) 64 32 100 none none]
  simp only [Option.map_some']
  rw [replicate_real_length, stftStarts_empty 10 64 32 (by norm_num)]
  rfl

/-- C2 (code evaluated at the failing input): on the specification's own
STFT scenario (256 samples, windowSize 64, hopSize 32, 100 Hz) every
spectrogram row has 128 entries while the returned frequency axis has 256
entries, so rows and frequency axis are not co-indexed length-wise. -/
theorem performSTFT_rows_shorter_than_frequencies :
    (performSTFT (List.replicate 256 (1 : ℝ)) 64 32 (some 100) none none).map
      (fun r => r.spectrogram.map List.length) = some (List.replicate 7 128) ∧
    (performSTFT (List.replicate 256 (1 : ℝ)) 64 32 (some 100) none none).map
      (fun r => r.frequencies.length) = some 256 ∧
    (128 : ℕ) ≠ 256 := by
  refine ⟨?_, ?_, by norm_num⟩
  · rw [performSTFT_ne_nil _ (replicate_real_ne_nil 256 (by norm_num) 1) 64 32 100 none none]
    simp only [Option.map_some']
    rw [stft_frames_eq, replicate_real_length,
      stftStarts_eq 256 64 32 (by norm_num) (by norm_num)]
    rw [List.map_map, List.map_map, List.map_map]
    have hrow : ∀ i ∈ List.range ((256 - 64) / 32 + 1),
        (((List.length ∘ Prod.fst) ∘ (fun start =>
          (stftRow (fftResult (stftWindowed (List.replicate 256 (1 : ℝ))
            (getWindow (some ((none : Option String).getD "hann")) 64
              (some ((none : Option ℝ).getD 8.6))) 64 start) 100),
            (start : ℝ) / 100))) ∘ (fun i => i * 32)) i = (fun _ => (128 : ℕ)) i := by
      intro i hi
      have hi' := List.mem_range.mp hi
      show (stftRow (fftResult (stftWindowed (List.replicate 256 (1 : ℝ))
        (getWindow (some ((none : Option String).getD "hann")) 64
          (some ((none : Option ℝ).getD 8.6))) 64 (i * 32)) 100)).length = 128
      apply stftRow_length_of_frame
      · exact getWindow_length _ _ _
      · rw [replicate_real_length]
        have h7 : (256 - 64) / 32 + 1 = 7 := by norm_num
        rw [h7] at hi'
        omega
      · norm_num
    rw [List.map_congr_left hrow, List.map_const', List.length_range]
  · rw [performSTFT_ne_nil _ (replicate_real_ne_nil 256 (by norm_num) 1) 64 32 100 none none]
    simp only [Option.map_some']
    rw [List.length_take, getFrequencies_length]
    rfl

/-! ## detrend -/

/-- Mean of the index axis 0..n-1 used by the least-squares fit. -/
def detrendMeanX (n : ℕ) : ℝ := (∑ i ∈ Finset.range n, (i : ℝ)) / (n : ℝ)

/-- Mean of the signal values. -/
def detrendMeanY (s : List ℝ) : ℝ :=
  (∑ i ∈ Finset.range s.length, s.getD i 0) / (s.length : ℝ)

/-- The least-squares numerator Σ (x_i - meanX)(y_i - meanY). -/
def detrendNumerator (s : List ℝ) : ℝ :=
  ∑ i ∈ Finset.range s.length,
    ((i : ℝ) - detrendMeanX s.length) * (s.getD i 0 - detrendMeanY s)

/-- The least-squares denominator Σ (x_i - meanX)². -/
def detrendDenominator (s : List ℝ) : ℝ :=
  ∑ i ∈ Finset.range s.length, ((i : ℝ) - detrendMeanX s.length) ^ 2

/-- slope = numerator / denominator, with no guard on a zero denominator
(in the embedding 0/0 evaluates to 0; in the JS source it is NaN). -/
def detrendSlope (s : List ℝ) : ℝ := detrendNumerator s / detrendDenominator s

def detrendIntercept (s : List ℝ) : ℝ :=
  detrendMeanY s - detrendSlope s * detrendMeanX s.length

/-- detrend: fit y = slope·i + intercept by ordinary least squares and
subtract the fitted line from every sample. -/
def detrend (signal : List ℝ) : Option (List ℝ) :=
  match signal with
  | [] => none
  | s => some (s.mapIdx (fun i y => y - (detrendSlope s * (i : ℝ) + detrendIntercept s)))

/-- C3 (code evaluated at the failing input): for the single-sample signal
[5] the least-squares denominator is 0 and the unguarded division corrupts
the output: the result is not the unchanged input (it is [0] under Lean's
0/0 = 0 semantics; in JS 0/0 is NaN, so the output is [NaN]). -/
theorem detrend_single_sample :
    detrendDenominator [(5 : ℝ)] = 0 ∧
    detrend [(5 : ℝ)] = some [0] ∧
    detrend [(5 : ℝ)] ≠ some [5] := by
  have hden : detrendDenominator [(5 : ℝ)] = 0 := by
    unfold detrendDenominator detrendMeanX
    norm_num
  have hslope : detrendSlope [(5 : ℝ)] = 0 := by
    unfold detrendSlope
    rw [hden]
    exact div_zero _
  have hint : detrendIntercept [(5 : ℝ)] = 5 := by
    unfold detrendIntercept
    rw [hslope]
    unfold detrendMeanY
    norm_num
  have hout : detrend [(5 : ℝ)] = some [0] := by
    show some (List.mapIdx
      (fun i y => y - (detrendSlope [(5 : ℝ)] * (i : ℝ) + detrendIntercept [(5 : ℝ)]))
      [(5 : ℝ)]) = some [0]
    rw [hslope, hint]
    norm_num
  refine ⟨hden, hout, ?_⟩
  rw [hout]
  intro h
  have h2 := Option.some.inj h
  have h3 : (0 : ℝ) = 5 := List.head_eq_of_cons_eq h2
  norm_num at h3

/-! ## getStatistics -/

/-- parseFloat(x.toFixed(4)): round to 4 decimal places.  toFixed rounds the
exact value to the nearest multiple of 10⁻⁴, ties away from zero (the sign
is handled separately), which for nonnegative arguments coincides with
Mathlib's round. -/
def round4 (x : ℝ) : ℝ :=
  if x < 0 then -((round (-x * 10000) : ℤ) : ℝ) / 10000
  else ((round (x * 10000) : ℤ) : ℝ) / 10000

/-- Statistics record returned by getStatistics. -/
structure Statistics where
  mean : ℝ
  stdDev : ℝ
  min : ℝ
  max : ℝ
  rms : ℝ
  peak : ℝ
  peakToPeak : ℝ

/-- The populated statistics for a non-empty signal x :: xs: reduce-based
mean, variance (of the full-precision mean), rms; Math.min/Math.max extrema;
peak = max(|min|, |max|) and peakToPeak = max - min from the unrounded
extrema; every stored field rounded to 4 decimals. -/
def statisticsOf (x : ℝ) (xs : List ℝ) : Statistics :=
  { mean := round4 (((x :: xs).foldl (· + ·) 0) / ((x :: xs).length : ℝ))
    stdDev := round4 (Real.sqrt (((x :: xs).foldl (fun sum v =>
      sum + (v - ((x :: xs).foldl (· + ·) 0) / ((x :: xs).length : ℝ)) ^ 2) 0)
        / ((x :: xs).length : ℝ)))
    min := round4 (xs.foldl min x)
    max := round4 (xs.foldl max x)
    rms := round4 (Real.sqrt (((x :: xs).foldl (fun sum v => sum + v * v) 0)
      / ((x :: xs).length : ℝ)))
    peak := round4 (max |xs.foldl min x| |xs.foldl max x|)
    peakToPeak := round4 (xs.foldl max x - xs.foldl min x) }

/-- getStatistics: null for an empty signal, otherwise the record above. -/
def getStatistics (signal : List ℝ) : Option Statistics :=
  match signal with
  | [] => none
  | x :: xs => some (statisticsOf x xs)

/-- foldl accumulation of f over a list equals the initial value plus the
sum of the mapped list. -/
lemma foldl_add_map (f : ℝ → ℝ) :
    ∀ (l : List ℝ) (a : ℝ), l.foldl (fun sum v => sum + f v) a = a + (l.map f).sum := by
  intro l
  induction l with
  | nil => intro a; simp
  | cons b t ih =>
    intro a
    rw [List.foldl_cons, ih (a + f b), List.map_cons, List.sum_cons]
    ring

lemma foldl_min_mem (xs : List ℝ) : ∀ x : ℝ, xs.foldl min x ∈ x :: xs := by
  induction xs with
  | nil => intro x; simp
  | cons a t ih =>
    intro x
    rw [List.foldl_cons]
    rcases le_total x a with h | h
    · rw [min_eq_left h]
      rcases List.mem_cons.mp (ih x) with h1 | h1
      · rw [h1]; simp
      · simp [h1]
    · rw [min_eq_right h]
      rcases List.mem_cons.mp (ih a) with h1 | h1
      · rw [h1]; simp
      · simp [h1]

lemma foldl_min_le (xs : List ℝ) : ∀ x : ℝ, ∀ v ∈ x :: xs, xs.foldl min x ≤ v := by
  induction xs with
  | nil =>
    intro x v hv
    rcases List.mem_cons.mp hv with h | h
    · rw [h]; simp
    · simp at h
  | cons a t ih =>
    intro x v hv
    rw [List.foldl_cons]
    have hhead : t.foldl min (min x a) ≤ min x a := ih (min x a) (min x a) (by simp)
    rcases List.mem_cons.mp hv with h | h
    · rw [h]
      exact le_trans hhead (min_le_left x a)
    · rcases List.mem_cons.mp h with h1 | h1
      · rw [h1]
        exact le_trans hhead (min_le_right x a)
      · exact ih (min x a) v (by simp [h1])

lemma foldl_max_mem (xs : List ℝ) : ∀ x : ℝ, xs.foldl max x ∈ x :: xs := by
  induction xs with
  | nil => intro x; simp
  | cons a t ih =>
    intro x
    rw [List.foldl_cons]
    rcases le_total x a with h | h
    · rw [max_eq_right h]
      rcases List.mem_cons.mp (ih a) with h1 | h1
      · rw [h1]; simp
      · simp [h1]
    · rw [max_eq_left h]
      rcases List.mem_cons.mp (ih x) with h1 | h1
      · rw [h1]; simp
      · simp [h1]

lemma foldl_le_max (xs : List ℝ) : ∀ x : ℝ, ∀ v ∈ x :: xs, v ≤ xs.foldl max x := by
  induction xs with
  | nil =>
    intro x v hv
    rcases List.mem_cons.mp hv with h | h
    · rw [h]; simp
    · simp at h
  | cons a t ih =>
    intro x v hv
    rw [List.foldl_cons]
    have hhead : max x a ≤ t.foldl max (max x a) := ih (max x a) (max x a) (by simp)
    rcases List.mem_cons.mp hv with h | h
    · rw [h]
      exact le_trans (le_max_left x a) hhead
    · rcases List.mem_cons.mp h with h1 | h1
      · rw [h1]
        exact le_trans (le_max_right x a) hhead
      · exact ih (max x a) v (by simp [h1])

/-- C9: every statistics field is the 4-decimal rounding of its
full-precision value; min and max are the roundings of the true extrema of
the samples, and peak and peakToPeak are computed from the unrounded
extrema before rounding. -/
theorem getStatistics_rounds_full_precision (s : List ℝ) (hs : s ≠ []) :
    ∃ st m M, getStatistics s = some st ∧ m ∈ s ∧ M ∈ s ∧
      (∀ v ∈ s, m ≤ v ∧ v ≤ M) ∧
      st.mean = round4 (s.sum / (s.length : ℝ)) ∧
      st.stdDev = round4 (Real.sqrt
        ((s.map (fun v => (v - s.sum / (s.length : ℝ)) ^ 2)).sum / (s.length : ℝ))) ∧
      st.min = round4 m ∧
      st.max = round4 M ∧
      st.rms = round4 (Real.sqrt ((s.map (fun v => v * v)).sum / (s.length : ℝ))) ∧
      st.peak = round4 (max |m| |M|) ∧
      st.peakToPeak = round4 (M - m) := by
  match s, hs with
  | x :: xs, _ =>
    have hsum : ((x :: xs).foldl (· + ·) 0) = (x :: xs).sum := by
      have h := foldl_add_map (fun v => v) (x :: xs) 0
      simpa using h
    refine ⟨statisticsOf x xs, xs.foldl min x, xs.foldl max x, rfl,
      foldl_min_mem xs x, foldl_max_mem xs x,
      fun v hv => ⟨foldl_min_le xs x v hv, foldl_le_max xs x v hv⟩, ?_, ?_, rfl, rfl, ?_, rfl,
      rfl⟩
    · show round4 (((x :: xs).foldl (· + ·) 0) / ((x :: xs).length : ℝ)) = _
      rw [hsum]
    · show round4 (Real.sqrt ((((x :: xs).foldl (fun sum v => sum +
          (v - ((x :: xs).foldl (· + ·) 0 / ((x :: xs).length : ℝ))) ^ 2) 0))
            / ((x :: xs).length : ℝ))) = _
      rw [foldl_add_map
        (fun v => (v - ((x :: xs).foldl (· + ·) 0 / ((x :: xs).length : ℝ))) ^ 2)
        (x :: xs) 0, hsum]
      norm_num
    · show round4 (Real.sqrt ((((x :: xs).foldl (fun sum v => sum + v * v) 0))
          / ((x :: xs).length : ℝ))) = _
      rw [foldl_add_map (fun v => v * v) (x :: xs) 0]
      norm_num

/-- Witness for C9 at the signal [1, 2]. -/
theorem getStatistics_rounds_full_precision_witness :
    ([1, 2] : List ℝ) ≠ [] ∧
    (∃ st m M, getStatistics ([1, 2] : List ℝ) = some st ∧ m ∈ ([1, 2] : List ℝ) ∧
      M ∈ ([1, 2] : List ℝ) ∧
      (∀ v ∈ ([1, 2] : List ℝ), m ≤ v ∧ v ≤ M) ∧
      st.mean = round4 (([1, 2] : List ℝ).sum / (([1, 2] : List ℝ).length : ℝ)) ∧
      st.stdDev = round4 (Real.sqrt ((([1, 2] : List ℝ).map
        (fun v => (v - ([1, 2] : List ℝ).sum / (([1, 2] : List ℝ).length : ℝ)) ^ 2)).sum
          / (([1, 2] : List ℝ).length : ℝ))) ∧
      st.min = round4 m ∧
      st.max = round4 M ∧
      st.rms = round4 (Real.sqrt ((([1, 2] : List ℝ).map (fun v => v * v)).sum
        / (([1, 2] : List ℝ).length : ℝ))) ∧
      st.peak = round4 (max |m| |M|) ∧
      st.peakToPeak = round4 (M - m)) :=
  ⟨by simp, getStatistics_rounds_full_precision ([1, 2] : List ℝ) (by simp)⟩



/-! ## performWavelet (CWT with complex Morlet wavelet) -/

/-- Default scale generation `for (s = 1; s <= 64; s *= 1.2) push(floor(s))`:
the exact rational iterate s = (6/5)^k is tracked as the pair num/den, so
floor(s) is the integer division num / den and the bound s ≤ 64 is
num ≤ 64·den.  The JS float loop produces the same floors, since no iterate
comes within float error of an integer or of the 64 bound. -/
def genScalesAux : ℕ → ℕ → ℕ → List ℕ
  | 0, _, _ => []
  | fuel + 1, num, den =>
    if num ≤ 64 * den then num / den :: genScalesAux fuel (num * 6) (den * 5) else []

/-- Ascending insertion sort, modelling Array.prototype.sort((a, b) => a - b). -/
def insertAsc (a : ℕ) : List ℕ → List ℕ
  | [] => [a]
  | b :: t => if a ≤ b then a :: b :: t else b :: insertAsc a t

def sortAsc : List ℕ → List ℕ
  | [] => []
  | a :: t => insertAsc a (sortAsc t)

/-- Default scales: generate, deduplicate ([...new Set(scales)]), sort
ascending. -/
def defaultScales : List ℕ := sortAsc ((genScalesAux 100 1 1).dedup)

/-- The caller-supplied scale list, or the default one. -/
def waveletScalesInput (scales : Option (List ℝ)) : List ℝ :=
  match scales with
  | none => defaultScales.map (fun (n : ℕ) => (n : ℝ))
  | some l => l

/-- The Nyquist filter: keep scales whose mapped maximum frequency
centerFrequency·sampleRate/scale does not exceed sampleRate/2. -/
def nyquistFilter (cf sr : ℝ) : List ℝ → List ℝ
  | [] => []
  | s :: rest =>
    if cf * sr / s ≤ sr / 2 then s :: nyquistFilter cf sr rest
    else nyquistFilter cf sr rest

/-- The scale list actually used: Nyquist-filtered when filterNyquist. -/
def waveletScalesUsed (scales : Option (List ℝ)) (omega0 sr : ℝ) (fN : Bool) : List ℝ :=
  if fN then nyquistFilter (omega0 / (2 * Real.pi)) sr (waveletScalesInput scales)
  else waveletScalesInput scales

/-- Complex Morlet wavelet ψ(u) = norm·exp(-u²/2σ²)·(cos ω₀u, sin ω₀u),
norm = 1/√(σ√π). -/
def morletWavelet (u sigma omega0 : ℝ) : ℝ × ℝ :=
  ((1 / Real.sqrt (Real.sqrt Real.pi * sigma)) * Real.exp (-u * u / (2 * sigma * sigma))
      * Real.cos (omega0 * u),
   (1 / Real.sqrt (Real.sqrt Real.pi * sigma)) * Real.exp (-u * u / (2 * sigma * sigma))
      * Real.sin (omega0 * u))

/-- Edge padding of the signal (JS slice semantics, clamped). An edgeMode
other than zero/symmetric/reflect (including 'none') leaves the signal
unpadded. -/
def waveletPad (signal : List ℝ) (edgeMode : String) (padSize : ℕ) : List ℝ × ℕ :=
  if edgeMode = "zero" then
    (List.replicate padSize 0 ++ signal ++ List.replicate padSize 0, padSize)
  else if edgeMode = "symmetric" then
    ((signal.take padSize).reverse ++ signal ++
      (signal.drop (signal.length - padSize)).reverse, padSize)
  else if edgeMode = "reflect" then
    (((signal.drop 1).take padSize).reverse ++ signal ++
      ((signal.drop (signal.length - padSize - 1)).dropLast).reverse, padSize)
  else (signal, 0)

/-- Magnitude of the CWT coefficient at time index t for one scale: direct
convolution over the window of half-width ⌊scale·5·σ⌋ around the padded
index, each tap weighted by dt/√scale.  (Indices are clamped to the padded
signal as in the source; the window half-width is nonnegative for the
nonnegative scales that reach this point.) -/
def waveletCoeffAt (padded : List ℝ) (padLeft : ℕ) (scale sigma omega0 dt : ℝ)
    (t : ℕ) : ℝ :=
  let window := (Int.floor (scale * 5 * sigma)).toNat
  let tP := t + padLeft
  let lo := tP - window
  let hi := min padded.length (tP + window)
  let re := ∑ n ∈ Finset.Ico lo hi,
    padded.getD n 0 * (morletWavelet (((n : ℝ) - (tP : ℝ)) / scale) sigma omega0).1
      * (dt / Real.sqrt scale)
  let im := ∑ n ∈ Finset.Ico lo hi,
    padded.getD n 0 * (morletWavelet (((n : ℝ) - (tP : ℝ)) / scale) sigma omega0).2
      * (dt / Real.sqrt scale)
  Real.sqrt (re * re + im * im)

/-- Result record of performWavelet. -/
structure CWTResult where
  coefficients : List (List ℝ)
  scales : List ℝ
  frequencies : List ℝ
  centerFrequency : ℝ
  omega0 : ℝ
  sampleRate : ℝ
  time : List ℝ
  waveletType : String
  edgeMode : String

/-- The populated CWT result for the already-filtered scale list. -/
def cwtResultOf (s : List ℝ) (scales1 : List ℝ) (wavelet : String)
    (sr omega0 sigma : ℝ) (edgeMode : String) : CWTResult :=
  let cf := omega0 / (2 * Real.pi)
  let padSize := (Int.floor (scales1.foldr max 0 * 5)).toNat
  let pp := if edgeMode = "none" then (s, 0) else waveletPad s edgeMode padSize
  { coefficients := scales1.map (fun scale =>
      (List.range s.length).map (fun t => waveletCoeffAt pp.1 pp.2 scale sigma omega0 (1 / sr) t))
    scales := scales1
    frequencies := scales1.map (fun scale => cf * sr / scale)
    centerFrequency := cf
    omega0 := omega0
    sampleRate := sr
    time := (List.range s.length).map (fun (i : ℕ) => (i : ℝ) / sr)
    waveletType := wavelet
    edgeMode := edgeMode }

/-- performWavelet: null on an empty signal or a missing sample rate; with
filterNyquist, null when the filtered scale list is empty, otherwise the
populated result on the filtered scales.  omega0, sigma, edgeMode and
filterNyquist model the options bag with its defaults 5, 1, 'none', true
(the JS || would also replace an explicit 0 by the default, which no caller
passes). -/
def performWavelet (signal : List ℝ) (scales : Option (List ℝ)) (wavelet : String)
    (sampleRate : Option ℝ) (omega0 sigma : ℝ) (edgeMode : String)
    (filterNyquist : Bool) : Option CWTResult :=
  match signal, sampleRate with
  | [], _ => none
  | _, none => none
  | s, some sr =>
    if filterNyquist ∧ waveletScalesUsed scales omega0 sr filterNyquist = [] then none
    else some (cwtResultOf s (waveletScalesUsed scales omega0 sr filterNyquist)
      wavelet sr omega0 sigma edgeMode)

lemma performWavelet_ne_nil (s : List ℝ) (hs : s ≠ []) (scales : Option (List ℝ))
    (wavelet : String) (sr omega0 sigma : ℝ) (edgeMode : String) (fN : Bool) :
    performWavelet s scales wavelet (some sr) omega0 sigma edgeMode fN =
      if fN ∧ waveletScalesUsed scales omega0 sr fN = [] then none
      else some (cwtResultOf s (waveletScalesUsed scales omega0 sr fN)
        wavelet sr omega0 sigma edgeMode) := by
  match s, hs with
  | a :: t, _ => rfl

lemma cwtResultOf_scales (s : List ℝ) (scales1 : List ℝ) (wavelet : String)
    (sr omega0 sigma : ℝ) (edgeMode : String) :
    (cwtResultOf s scales1 wavelet sr omega0 sigma edgeMode).scales = scales1 := rfl

/-! Properties of the Nyquist filter. -/

lemma nyquistFilter_sublist (cf sr : ℝ) :
    ∀ l : List ℝ, List.Sublist (nyquistFilter cf sr l) l := by
  intro l
  induction l with
  | nil => exact List.Sublist.refl []
  | cons a t ih =>
    rw [nyquistFilter]
    by_cases h : cf * sr / a ≤ sr / 2
    · rw [if_pos h]
      exact List.Sublist.cons₂ a ih
    · rw [if_neg h]
      exact List.Sublist.cons a ih

lemma nyquistFilter_mem (cf sr : ℝ) :
    ∀ l : List ℝ, ∀ s ∈ nyquistFilter cf sr l, cf * sr / s ≤ sr / 2 := by
  intro l
  induction l with
  | nil => intro s hs; simp [nyquistFilter] at hs
  | cons a t ih =>
    intro s hs
    rw [nyquistFilter] at hs
    by_cases h : cf * sr / a ≤ sr / 2
    · rw [if_pos h] at hs
      rcases List.mem_cons.mp hs with h1 | h1
      · rw [h1]; exact h
      · exact ih s h1
    · rw [if_neg h] at hs
      exact ih s hs

lemma nyquistFilter_all_kept (cf sr : ℝ) :
    ∀ l : List ℝ, (∀ s ∈ l, cf * sr / s ≤ sr / 2) → nyquistFilter cf sr l = l := by
  intro l
  induction l with
  | nil => intro _; rfl
  | cons a t ih =>
    intro h
    rw [nyquistFilter, if_pos (h a (by simp)), ih (fun s hs => h s (by simp [hs]))]

lemma waveletScalesUsed_true (sc : Option (List ℝ)) (omega0 sr : ℝ) :
    waveletScalesUsed sc omega0 sr true =
      nyquistFilter (omega0 / (2 * Real.pi)) sr (waveletScalesInput sc) := rfl

lemma waveletScalesInput_some (l : List ℝ) : waveletScalesInput (some l) = l := rfl

lemma waveletScalesInput_none :
    waveletScalesInput none = defaultScales.map (fun (n : ℕ) => (n : ℝ)) := rfl

/-- For sampleRate 100 and ω₀ = 5, a scale of at least 2 passes the Nyquist
filter (π·s ≥ 2π > 5). -/
lemma nyq_cond_holds_ge2 (s : ℝ) (hs : 2 ≤ s) :
    5 / (2 * Real.pi) * 100 / s ≤ 100 / 2 := by
  have hpi := Real.pi_gt_d6
  have hppos : (0 : ℝ) < Real.pi := by linarith
  have hspos : (0 : ℝ) < s := by linarith
  have hkey : 5 / (2 * Real.pi) * 100 / s = 250 / (Real.pi * s) := by
    field_simp
    ring
  rw [hkey, div_le_iff₀ (by positivity)]
  nlinarith

/-- For sampleRate 100 and ω₀ = 5, the scale 1 maps above Nyquist
(250/π > 50 since π < 5). -/
lemma nyq_cond_fails_one : ¬ (5 / (2 * Real.pi) * 100 / 1 ≤ 100 / 2) := by
  have hpi := Real.pi_lt_d2
  have hppos : (0 : ℝ) < Real.pi := Real.pi_pos
  intro h
  have hkey : 5 / (2 * Real.pi) * 100 / 1 = 250 / Real.pi := by
    field_simp
    ring
  rw [hkey, div_le_iff₀ hppos] at h
  nlinarith

lemma defaultScales_cast_pairwise :
    List.Pairwise (· < ·) (defaultScales.map (fun (n : ℕ) => (n : ℝ))) := by
  rw [List.pairwise_map]
  have h : List.Pairwise (· < ·) defaultScales := by decide
  exact h.imp (fun hab => (Nat.cast_lt (α := ℝ)).mpr hab)

/-- Evaluation of the Nyquist filter on the default scales at
sampleRate = 100, ω₀ = 5: the scale 1 is dropped, every other default scale
is kept. -/
lemma nyquistFilter_default_100_5 :
    nyquistFilter (5 / (2 * Real.pi)) 100 (defaultScales.map (fun (n : ℕ) => (n : ℝ))) =
      ([2, 3, 4, 5, 6, 7, 8, 10, 12, 15, 18, 22, 26, 31, 38, 46, 55] : List ℝ) := by
  have hds : defaultScales = [1, 2, 3, 4, 5, 6, 7, 8, 10, 12, 15, 18, 22, 26, 31, 38, 46, 55] :=
    by decide
  rw [hds]
  simp only [List.map_cons, List.map_nil, Nat.cast_ofNat, Nat.cast_one]
  rw [nyquistFilter, if_neg nyq_cond_fails_one]
  apply nyquistFilter_all_kept
  intro s hs
  simp only [List.mem_cons, List.not_mem_nil, or_false] at hs
  rcases hs with rfl | rfl | rfl | rfl | rfl | rfl | rfl | rfl | rfl | rfl | rfl | rfl | rfl
    | rfl | rfl | rfl | rfl <;>
    apply nyq_cond_holds_ge2 <;> norm_num

/-- C6 (amended): with filterNyquist enabled, every scale kept in the result
maps to a frequency at most sampleRate/2; the returned scale list is
non-empty, and it is strictly ascending whenever the default generated
scales are used (a caller-supplied unsorted scale list is passed through in
its own order); if the filtering empties the scale list the operation fails
with null.  In particular, for sampleRate 100 and ω₀ = 5 with default
scales, exactly the scales 2..55 survive, in strictly ascending order. -/
theorem performWavelet_nyquist_filtering (signal : List ℝ) (scales : Option (List ℝ))
    (wavelet : String) (sr omega0 sigma : ℝ) (edgeMode : String) :
    (∀ r, performWavelet signal scales wavelet (some sr) omega0 sigma edgeMode true = some r →
      (∀ s ∈ r.scales, omega0 / (2 * Real.pi) * sr / s ≤ sr / 2) ∧
      r.scales ≠ [] ∧
      (scales = none → List.Pairwise (· < ·) r.scales) ∧
      (scales = none → sr = 100 → omega0 = 5 →
        r.scales = ([2, 3, 4, 5, 6, 7, 8, 10, 12, 15, 18, 22, 26, 31, 38, 46, 55] : List ℝ))) ∧
    (nyquistFilter (omega0 / (2 * Real.pi)) sr (waveletScalesInput scales) = [] →
      performWavelet signal scales wavelet (some sr) omega0 sigma edgeMode true = none) := by
  constructor
  · intro r hr
    match signal with
    | [] => simp [performWavelet] at hr
    | a :: t =>
      rw [performWavelet_ne_nil (a :: t) (by simp) scales wavelet sr omega0 sigma edgeMode
        true] at hr
      by_cases hempty : waveletScalesUsed scales omega0 sr true = []
      · rw [if_pos ⟨rfl, hempty⟩] at hr
        simp at hr
      · rw [if_neg (by
          intro hand
          exact hempty hand.2)] at hr
        have hrs : r.scales = waveletScalesUsed scales omega0 sr true := by
          have := Option.some.inj hr
          rw [← this, cwtResultOf_scales]
        refine ⟨?_, ?_, ?_, ?_⟩
        · intro s hs
          rw [hrs, waveletScalesUsed_true] at hs
          exact nyquistFilter_mem _ _ _ s hs
        · rw [hrs]
          exact hempty
        · intro hnone
          rw [hrs, waveletScalesUsed_true, hnone]
          exact (defaultScales_cast_pairwise).sublist
            (nyquistFilter_sublist _ _ (waveletScalesInput none))
        · intro hnone hsr homega
          rw [hrs, waveletScalesUsed_true, hnone, hsr, homega]
          exact nyquistFilter_default_100_5
  · intro hfil
    match signal with
    | [] => rfl
    | a :: t =>
      rw [performWavelet_ne_nil (a :: t) (by simp) scales wavelet sr omega0 sigma edgeMode
        true]
      rw [if_pos ⟨rfl, by rw [waveletScalesUsed_true]; exact hfil⟩]

/-- Witness for (the amended) C6: the concrete default-scales run at
sampleRate 100, ω₀ = 5. -/
theorem performWavelet_nyquist_filtering_witness :
    ∃ r, performWavelet [1, 0] none "morlet" (some 100) 5 1 "none" true = some r ∧
      (∀ s ∈ r.scales, 5 / (2 * Real.pi) * 100 / s ≤ 100 / 2) ∧
      r.scales ≠ [] ∧
      List.Pairwise (· < ·) r.scales ∧
      r.scales = ([2, 3, 4, 5, 6, 7, 8, 10, 12, 15, 18, 22, 26, 31, 38, 46, 55] : List ℝ) := by
  have hne : waveletScalesUsed none 5 100 true ≠ [] := by
    rw [waveletScalesUsed_true, waveletScalesInput_none, nyquistFilter_default_100_5]
    simp
  have hrun : performWavelet ([1, 0] : List ℝ) none "morlet" (some 100) 5 1 "none" true =
      some (cwtResultOf [1, 0] (waveletScalesUsed none 5 100 true) "morlet" 100 5 1 "none") := by
    rw [performWavelet_ne_nil [1, 0] (by simp) none "morlet" 100 5 1 "none" true]
    rw [if_neg (by
      intro hand
      exact hne hand.2)]
  have h := (performWavelet_nyquist_filtering ([1, 0] : List ℝ) none "morlet" 100 5 1 "none").1
    _ hrun
  exact ⟨_, hrun, h.1, h.2.1, h.2.2.1 rfl, h.2.2.2 rfl rfl rfl⟩

/-- C6 counterexample to the claim as stated: a caller-supplied scale list
[3, 2] (both below Nyquist at 100 Hz, ω₀ = 5) is returned in its original
order, which is not strictly ascending. -/
theorem performWavelet_custom_scales_unsorted :
    (performWavelet [1, 0] (some [(3 : ℝ), 2]) "morlet" (some 100) 5 1 "none" true).map
      (fun r => r.scales) = some [(3 : ℝ), 2] ∧
    ¬ List.Pairwise (· < ·) [(3 : ℝ), 2] := by
  constructor
  · have hfil : waveletScalesUsed (some [(3 : ℝ), 2]) 5 100 true = [(3 : ℝ), 2] := by
      rw [waveletScalesUsed_true, waveletScalesInput_some]
      apply nyquistFilter_all_kept
      intro s hs
      simp only [List.mem_cons, List.not_mem_nil, or_false] at hs
      rcases hs with h1 | h1
      · rw [h1]
        exact nyq_cond_holds_ge2 3 (by norm_num)
      · rw [h1]
        exact nyq_cond_holds_ge2 2 (by norm_num)
    rw [performWavelet_ne_nil [1, 0] (by simp) (some [(3 : ℝ), 2]) "morlet" 100 5 1 "none" true]
    rw [hfil]
    rw [if_neg (by simp)]
    simp only [Option.map_some']
    rw [cwtResultOf_scales]
  · intro h
    have h32 := (List.pairwise_cons.mp h).1 2 (by simp)
    norm_num at h32

/-! ## C5: sample-rate validation -/

/-- C5 (amended): each of performFFT, performSTFT, performWavelet and
performHilbert rejects a missing sample rate with null before any
computation; a provided non-positive sample rate is not rejected (see the
counterexample theorem). -/
theorem missing_sample_rate_rejected (signal : List ℝ) (W H : ℕ)
    (scales : Option (List ℝ)) (wavelet : String) (omega0 sigma : ℝ) (edgeMode : String)
    (fN : Bool) (wt : Option String) (kb : Option ℝ) :
    performFFT signal none = none ∧
    performSTFT signal W H none wt kb = none ∧
    performWavelet signal scales wavelet none omega0 sigma edgeMode fN = none ∧
    performHilbert signal none = none := by
  refine ⟨?_, ?_, ?_, ?_⟩ <;> cases signal <;> rfl

/-- C5 counterexample to the claim as stated: the non-positive sample rate 0
is accepted by performFFT, which returns a populated result. -/
theorem performFFT_zero_sample_rate_accepted :
    (performFFT [1, 0] (some 0)).isSome = true := by
  rw [performFFT_ne_nil [1, 0] (by simp) 0]
  rfl

end SignalProcessor
